import Mathlib

/-!
Verification of the segment-manifest engine (the dependency-graph builder /
incremental-invalidation engine of the layout-watcher).

The TypeScript engine is shallowly embedded below.  External collaborators
(the swc parser, Node's `require.resolve` and `builtinModules`) are modelled
as oracle fields of the `Disk` structure; everything else — the POSIX path
arithmetic, the file cache, the resolver pipeline, the traversal loop, the
bidirectional segment index, the manifest writer and the event handlers — is
translated directly from the source.  The source-tree filesystem is a finite
map of paths to file contents; the cache-directory filesystem (where
manifests are written and manifest requests are observed) is a separate map
carried in the `World` state, mirroring the fact that the engine watches the
two directory trees independently.
-/

namespace SegmentEngine

/-! ## Association lists and insertion-ordered sets

JavaScript `Map` is modelled as an association list (insertion order, `set`
replaces in place, `delete` removes the entry); JavaScript `Set` is modelled
as a duplicate-free list in insertion order. -/

/-- Lookup in an association list (`Map.get`). -/
def alookup {α : Type} (m : List (String × α)) (k : String) : Option α :=
  match m with
  | [] => none
  | (k', v) :: rest => if k' = k then some v else alookup rest k

/-- `Map.set`: replace the binding in place if the key is present, else append. -/
def aset {α : Type} (m : List (String × α)) (k : String) (v : α) : List (String × α) :=
  match m with
  | [] => [(k, v)]
  | (k', v') :: rest => if k' = k then (k, v) :: rest else (k', v') :: aset rest k v

/-- `Map.delete`: remove the binding for a key. -/
def aerase {α : Type} (m : List (String × α)) (k : String) : List (String × α) :=
  match m with
  | [] => []
  | (k', v) :: rest => if k' = k then aerase rest k else (k', v) :: aerase rest k

/-- `Set.add`: append if not already present. -/
def sadd (s : List String) (x : String) : List String :=
  if s.contains x then s else s ++ [x]

/-! ## POSIX path model

The engine runs Node's `path` module on POSIX-style paths.  The functions
below implement `path.normalize`/`resolve`/`join`/`relative`/`dirname`/
`basename`/`extname`/`isAbsolute` for the inputs the engine feeds them
(absolute base directories, forward-slash separators).  Splitting and
joining are written over `List Char` so that their algebra is provable by
structural induction. -/

/-- String prefix test (`String.prototype.startsWith`). -/
def strStartsWith (p pre : String) : Bool := pre.toList.isPrefixOf p.toList

/-- `String.prototype.slice(n)`. -/
def strDrop (s : String) (n : Nat) : String := String.mk (s.toList.drop n)

/-- `path.isAbsolute` (POSIX): the first character is a slash. -/
def pIsAbsolute (p : String) : Bool :=
  match p.toList with
  | [] => false
  | c :: _ => c = '/'

/-- Split a character list at every occurrence of the separator. -/
def splitChars (sep : Char) : List Char → List (List Char)
  | [] => [[]]
  | c :: rest =>
    if c = sep then [] :: splitChars sep rest
    else
      match splitChars sep rest with
      | [] => [[c]]
      | l :: ls => (c :: l) :: ls

/-- Interleave the separator between the component lists. -/
def joinChars (sep : Char) : List (List Char) → List Char
  | [] => []
  | [l] => l
  | l :: ls => l ++ sep :: joinChars sep ls

/-- Split a path into its `/`-separated components. -/
def splitPath (p : String) : List String := (splitChars '/' p.toList).map String.mk

/-- Segment normalization for an absolute path: drop empty and `.` components
and resolve `..` (which cannot climb above the root).  The accumulator holds
the already-processed components in reverse. -/
def normAbsSegs : List String → List String → List String
  | acc, [] => acc.reverse
  | acc, s :: rest =>
    if s = "" || s = "." then normAbsSegs acc rest
    else if s = ".." then normAbsSegs acc.tail rest
    else normAbsSegs (s :: acc) rest

/-- Rebuild an absolute path from its normalized components. -/
def joinSegs (segs : List String) : String :=
  String.mk ('/' :: joinChars '/' (segs.map String.toList))

/-- `path.normalize` on an absolute path. -/
def pNormalizeAbs (p : String) : String := joinSegs (normAbsSegs [] (splitPath p))

/-- `path.resolve(base, p)` where `base` is an absolute directory. -/
def pResolve (base p : String) : String :=
  if pIsAbsolute p then pNormalizeAbs p else pNormalizeAbs (base ++ "/" ++ p)

/-- `path.join(a, b)` where `a` is absolute. -/
def pJoin (a b : String) : String := pNormalizeAbs (a ++ "/" ++ b)

/-- `path.dirname` for a normalized absolute path. -/
def pDirname (p : String) : String :=
  joinSegs (((splitPath p).filter (fun s => s ≠ "")).dropLast)

/-- `path.basename` for a normalized absolute path. -/
def pBasename (p : String) : String :=
  ((splitPath p).filter (fun s => s ≠ "")).getLastD ""

/-- Index (from the front) of the last `.` in a basename, if any. -/
def lastDotIdx : List Char → Nat → Option Nat → Option Nat
  | [], _, best => best
  | c :: rest, i, best => lastDotIdx rest (i + 1) (if c = '.' then some i else best)

/-- `String.toLowerCase` character by character (structural, so that the
definition evaluates by kernel reduction). -/
def strToLower (s : String) : String := String.mk (s.toList.map Char.toLower)

/-- `path.extname` for paths whose basename is a regular file name (the engine
only applies it to normalized absolute paths, never to a bare `..`). -/
def pExtname (p : String) : String :=
  let b := (pBasename p).toList
  match lastDotIdx b 0 none with
  | none => ""
  | some i => if i = 0 then "" else String.mk (b.drop i)

/-- Drop the common prefix of two component lists. -/
def dropCommon : List String → List String → List String × List String
  | a :: as', b :: bs' => if a = b then dropCommon as' bs' else (a :: as', b :: bs')
  | as', bs' => (as', bs')

/-- `path.relative(src, dst)`; both arguments are resolved against the
process working directory `root` first. -/
def pRelative (root src dst : String) : String :=
  let f := (splitPath (pResolve root src)).filter (fun s => s ≠ "")
  let t := (splitPath (pResolve root dst)).filter (fun s => s ≠ "")
  let (f', t') := dropCommon f t
  String.mk (joinChars '/' ((f'.map (fun _ => "..") ++ t').map String.toList))

/-- A component that normalization may emit verbatim. -/
def GoodSeg (s : String) : Prop := s ≠ "" ∧ s ≠ "." ∧ s ≠ ".." ∧ '/' ∉ s.toList

instance (s : String) : Decidable (GoodSeg s) := by
  unfold GoodSeg; infer_instance

/-! ## Engine constants and leaf helpers -/

/-- `SRC_DIR = path.join(ROOT, 'src')`; `root` stands for `process.cwd()`. -/
def SRC_DIR (root : String) : String := pJoin root "src"

/-- `APP_DIR = path.join(SRC_DIR, 'app')`. -/
def APP_DIR (root : String) : String := pJoin (SRC_DIR root) "app"

/-- `CACHE_DIR = path.join(ROOT, 'node_modules/.cache/test')`. -/
def CACHE_DIR (root : String) : String := pJoin root "node_modules/.cache/test"

def RESOLVE_EXTENSIONS : List String :=
  [".tsx", ".ts", ".jsx", ".js", ".mjs", ".cjs", ".json"]

def PARSEABLE_EXTENSIONS : List String :=
  [".tsx", ".ts", ".jsx", ".js", ".mjs", ".cjs"]

def ENTRY_FILENAMES : List String := ["layout.tsx", "page.tsx"]

/-- `toPosixPath`: replace backslashes with forward slashes. -/
def toPosixPath (filePath : String) : String :=
  String.mk (filePath.toList.map (fun c => if c = '\\' then '/' else c))

/-- `normalizeFilePath = path.normalize(path.resolve(filePath))`. -/
def normalizeFilePath (root filePath : String) : String :=
  pNormalizeAbs (pResolve root filePath)

/-- `isWithin(directoryPath, filePath)`. -/
def isWithin (root directoryPath filePath : String) : Bool :=
  let relativePath := pRelative root directoryPath filePath
  relativePath = "" ||
    (!strStartsWith relativePath ".." && !pIsAbsolute relativePath)

/-- Split a character list at every `\r\n` or `\n` (the regex `/\r?\n/`). -/
def splitLineTerms : List Char → List (List Char)
  | [] => [[]]
  | '\r' :: '\n' :: rest => [] :: splitLineTerms rest
  | '\n' :: rest => [] :: splitLineTerms rest
  | c :: rest =>
    match splitLineTerms rest with
    | [] => [[c]]
    | l :: ls => (c :: l) :: ls

/-- `countLines`: zero for empty text, else the number of
terminator-delimited segments. -/
def countLines (sourceCode : String) : Nat :=
  if sourceCode.length = 0 then 0 else (splitLineTerms sourceCode.toList).length

/-- Lexicographic code-point comparison on character lists. -/
def charListLe : List Char → List Char → Bool
  | [], _ => true
  | _ :: _, [] => false
  | a :: as', b :: bs' =>
    if a.toNat < b.toNat then true
    else if b.toNat < a.toNat then false
    else charListLe as' bs'

/-- JavaScript's default string comparison used by `Array.prototype.sort`
(and, on the engine's ASCII path strings, by `localeCompare`): code-point
lexicographic order. -/
def strLe (a b : String) : Bool := charListLe a.toList b.toList

/-- Insert into a `strLe`-sorted list, keeping it sorted. -/
def insertSorted (x : String) : List String → List String
  | [] => [x]
  | y :: ys => if strLe x y then x :: y :: ys else y :: insertSorted x ys

/-- `Array.from(xs).sort()`: ascending string order (insertion sort, so
that the definition evaluates by kernel reduction). -/
def sortStrings (xs : List String) : List String := xs.foldr insertSorted []

/-! ## Data model

`Disk` is the source-tree filesystem together with the external oracles the
engine consults: the swc-based specifier extraction (`parseSpecs`, covering
`parseSync` plus the AST walk of `collectImportSpecifiers`, including its
return-`[]`-on-parse-failure behavior), Node's `require.resolve`
(`requireResolve c dir` models `runtimeRequire.resolve(c, {paths: [dir]})`,
`none` standing for a thrown error) and the `NODE_BUILTINS` membership test.
The source tree is fixed while the engine processes one operation (the
engine is single-threaded; §5 of the spec). -/

structure Disk where
  /-- Source files on disk: normalized absolute path ↦ file text. -/
  files : List (String × String)
  /-- Oracle for `collectImportSpecifiers`'s parse + AST walk. -/
  parseSpecs : String → String → List String
  /-- Oracle for `runtimeRequire.resolve(candidate, {paths: [dir]})`. -/
  requireResolve : String → String → Option String
  /-- Oracle for `NODE_BUILTINS.has`. -/
  isBuiltin : String → Bool

/-- `fs.existsSync` on the source tree. -/
def Disk.existsF (d : Disk) (p : String) : Bool := (d.files.map Prod.fst).contains p

/-- `fs.readFileSync(p, 'utf8')` (the engine only reads paths it has
existence-checked). -/
def Disk.read (d : Disk) (p : String) : String := (alookup d.files p).getD ""

structure CachedFile where
  imports : List String
  lines : Nat
deriving DecidableEq, Repr

structure SegmentDefinition where
  entries : List String
  id : String
deriving DecidableEq, Repr

structure SegmentManifestFile where
  imports : List String
  lines : Nat
deriving DecidableEq, Repr

/-- The manifest record; `files` is a JavaScript object in insertion order. -/
structure SegmentManifest where
  entries : List String
  files : List (String × SegmentManifestFile)
  segment : String
  updatedAt : Nat
deriving DecidableEq, Repr

structure WatchEvent where
  path : String
  type : String
deriving DecidableEq, Repr

/-- Observable content of a file in the cache directory: either text that
fails `JSON.parse` (or parses to a non-object), an object without a `files`
key (e.g. the `'{}'` placeholder the loader writes), or a full manifest. -/
inductive DiskJson where
  | invalid : DiskJson
  | objNoFiles : DiskJson
  | manifest : SegmentManifest → DiskJson
deriving DecidableEq, Repr

/-- The engine's four module-level mutable maps. -/
structure EngineState where
  cachedFiles : List (String × CachedFile)
  fileToSegments : List (String × List String)
  segmentDefinitions : List (String × SegmentDefinition)
  segmentToFiles : List (String × List String)
deriving DecidableEq, Repr

/-- Engine state plus the cache-directory filesystem (where manifests are
written, removed, and read back by `isManifestRequest`). -/
structure World where
  engine : EngineState
  cacheFS : List (String × DiskJson)
deriving DecidableEq, Repr

/-! ## Import extraction and specifier resolution -/

/-- `collectImportSpecifiers`: non-parseable extensions yield no imports;
otherwise the parse + AST walk oracle supplies the distinct raw specifiers. -/
def collectImportSpecifiers (d : Disk) (sourceCode filePath : String) :
    List String :=
  let extension := strToLower (pExtname filePath)
  if !PARSEABLE_EXTENSIONS.contains extension then []
  else d.parseSpecs sourceCode filePath

/-- `normalizeImportSpecifier`: rewrite the `@src/` and `@/` alias prefixes. -/
def normalizeImportSpecifier (root importSpecifier : String) : String :=
  if strStartsWith importSpecifier "@src/" then
    pJoin (SRC_DIR root) (strDrop importSpecifier "@src/".length)
  else if strStartsWith importSpecifier "@/" then
    pJoin (SRC_DIR root) (strDrop importSpecifier 2)
  else importSpecifier

/-- `buildResolveCandidates`. -/
def buildResolveCandidates (importSpecifier sourceDirectory : String) :
    List String :=
  let isPathLike := strStartsWith importSpecifier "./" ||
    strStartsWith importSpecifier "../" || pIsAbsolute importSpecifier
  if !isPathLike then [importSpecifier]
  else
    let absolutePath := if pIsAbsolute importSpecifier then importSpecifier
      else pResolve sourceDirectory importSpecifier
    if pExtname absolutePath ≠ "" then [absolutePath]
    else
      RESOLVE_EXTENSIONS.foldl
        (fun candidates extension =>
          sadd (sadd candidates (absolutePath ++ extension))
            (pJoin absolutePath ("index" ++ extension)))
        [absolutePath]

/-- The candidate loop of `resolveImportPath`: try `require.resolve` on each
candidate (a throw moves on), normalize, skip resolutions outside the source
root. -/
def firstResolved (root : String) (d : Disk) (sourceDirectory : String) :
    List String → Option String
  | [] => none
  | resolveCandidate :: rest =>
    match d.requireResolve resolveCandidate sourceDirectory with
    | none => firstResolved root d sourceDirectory rest
    | some r =>
      let resolvedPath := normalizeFilePath root r
      if isWithin root (SRC_DIR root) resolvedPath then some resolvedPath
      else firstResolved root d sourceDirectory rest

/-- `resolveImportPath`. -/
def resolveImportPath (root : String) (d : Disk)
    (sourceFilePath importSpecifier : String) : Option String :=
  if d.isBuiltin importSpecifier then none
  else
    let normalizedSpecifier := normalizeImportSpecifier root importSpecifier
    let sourceDirectory := pDirname sourceFilePath
    firstResolved root d sourceDirectory
      (buildResolveCandidates normalizedSpecifier sourceDirectory)

/-! ## File cache -/

/-- The recompute branch of `getCachedFile` for an existing file: read,
extract specifiers, resolve each keeping the non-null results as a set,
sort, count lines. -/
def computeFileRecord (root : String) (d : Disk) (normalizedPath : String) :
    CachedFile :=
  let sourceCode := d.read normalizedPath
  let importSpecifiers := collectImportSpecifiers d sourceCode normalizedPath
  let resolvedImports := importSpecifiers.foldl
    (fun acc importSpecifier =>
      match resolveImportPath root d normalizedPath importSpecifier with
      | some resolvedImportPath => sadd acc resolvedImportPath
      | none => acc) []
  { imports := sortStrings resolvedImports, lines := countLines sourceCode }

/-- `getCachedFile`: return the cached record, else cache a zero record for a
missing file (`normalizedPath` is written out in each branch). -/
def getCachedFile (root : String) (d : Disk) (st : EngineState)
    (filePath : String) : CachedFile × EngineState :=
  match alookup st.cachedFiles (normalizeFilePath root filePath) with
  | some cached => (cached, st)
  | none =>
    if !d.existsF (normalizeFilePath root filePath) then
      (⟨[], 0⟩,
        { st with
          cachedFiles :=
              aset st.cachedFiles (normalizeFilePath root filePath) ⟨[], 0⟩ })
    else
      (computeFileRecord root d (normalizeFilePath root filePath),
        { st with
          cachedFiles :=
              aset st.cachedFiles (normalizeFilePath root filePath)
                (computeFileRecord root d (normalizeFilePath root filePath)) })

/-- The record `getCachedFile` returns for an already-normalized path:
cached value if present, else freshly computed. -/
def effRecord (root : String) (d : Disk) (st : EngineState) (p : String) :
    CachedFile :=
  match alookup st.cachedFiles p with
  | some c => c
  | none => if d.existsF p then computeFileRecord root d p else ⟨[], 0⟩

/-! ## Segment index and manifest writer -/

/-- `getManifestPath = path.join(CACHE_DIR, segmentId, 'manifest.json')`. -/
def getManifestPath (root segmentId : String) : String :=
  pJoin (pJoin (CACHE_DIR root) segmentId) "manifest.json"

/-- The per-file body of `clearSegmentMembership`'s loop: delete the segment
from the file's segment set, dropping the entry when it becomes empty. -/
def clearStep (segmentId : String) (m : List (String × List String))
    (filePath : String) : List (String × List String) :=
  match alookup m filePath with
  | none => m
  | some segments =>
    if (segments.filter (fun s => s ≠ segmentId)).isEmpty then aerase m filePath
    else aset m filePath (segments.filter (fun s => s ≠ segmentId))

/-- `clearSegmentMembership`: remove the segment from both sides of the
bidirectional index. -/
def clearSegmentMembership (segmentId : String) (st : EngineState) : EngineState :=
  match alookup st.segmentToFiles segmentId with
  | none => st
  | some segmentFiles =>
    { st with
      fileToSegments := segmentFiles.foldl (clearStep segmentId) st.fileToSegments,
      segmentToFiles := aerase st.segmentToFiles segmentId }

/-- `removeSegment`: clear index membership, drop the definition, delete the
manifest file if it exists. -/
def removeSegment (root segmentId : String) (w : World) : World :=
  let st := clearSegmentMembership segmentId w.engine
  let st := { st with segmentDefinitions := aerase st.segmentDefinitions segmentId }
  let manifestPath := getManifestPath root segmentId
  let cacheFS := if (alookup w.cacheFS manifestPath).isSome
    then aerase w.cacheFS manifestPath else w.cacheFS
  { engine := st, cacheFS := cacheFS }

/-- One iteration of `writeManifest`'s `for (const filePath of sortedFiles)`
body: fetch the file record, restrict and relativize its recorded imports,
and install the manifest entry. -/
def manifestStep (root : String) (d : Disk) (segmentFiles : List String)
    (segmentDependencies : List (String × List String))
    (acc : List (String × SegmentManifestFile) × EngineState)
    (filePath : String) : List (String × SegmentManifestFile) × EngineState :=
  (aset acc.1 (toPosixPath (pRelative root root filePath))
    { imports := sortStrings
        ((((alookup segmentDependencies filePath).getD []).filter
          (fun importPath => segmentFiles.contains importPath)).map
          (fun importPath => toPosixPath (pRelative root root importPath))),
      lines := (getCachedFile root d acc.2 filePath).1.lines },
    (getCachedFile root d acc.2 filePath).2)

/-- `writeManifest`: serialize the closure (member files in sorted order,
imports restricted to closure membership and made root-relative) and write
it at the segment's manifest location (`fs.mkdirSync` has no observable
effect in this model). -/
def writeManifest (root : String) (d : Disk) (now : Nat) (w : World)
    (segmentDefinition : SegmentDefinition) (segmentFiles : List String)
    (segmentDependencies : List (String × List String)) : World :=
  { engine := ((sortStrings segmentFiles).foldl
      (manifestStep root d segmentFiles segmentDependencies) ([], w.engine)).2,
    cacheFS := aset w.cacheFS (getManifestPath root segmentDefinition.id)
      (DiskJson.manifest
        { entries := segmentDefinition.entries.map
            (fun entryPath => toPosixPath (pRelative root root entryPath)),
          files := ((sortStrings segmentFiles).foldl
            (manifestStep root d segmentFiles segmentDependencies)
            ([], w.engine)).1,
          segment := segmentDefinition.id,
          updatedAt := now }) }

/-! ## Closure builder -/

/-- One `while (filesToVisit.length > 0)` loop of `buildSegment`, with an
explicit fuel argument (the loop terminates because only existing files are
ever visited and pushes only happen on a fresh visit; `segmentFuel` below is
a sufficient budget, see `buildLoop_stack_empty`). -/
def buildLoop (root : String) (d : Disk) :
    Nat → EngineState → List String → List String →
    List (String × List String) →
    EngineState × List String × List (String × List String)
  | 0, st, _, visited, deps => (st, visited, deps)
  | fuel + 1, st, stack, visited, deps =>
    match stack with
    | [] => (st, visited, deps)
    | nextFilePath :: rest =>
      let filePath := normalizeFilePath root nextFilePath
      if visited.contains filePath then buildLoop root d fuel st rest visited deps
      else if !d.existsF filePath then buildLoop root d fuel st rest visited deps
      else
        let visited' := visited ++ [filePath]
        let (fileData, st') := getCachedFile root d st filePath
        let deps' := aset deps filePath fileData.imports
        let stack' := fileData.imports.filter
          (fun importPath => !visited'.contains importPath) ++ rest
        buildLoop root d fuel st' stack' visited' deps'

/-- A fuel budget that the loop can never exhaust: every pop either shrinks
the stack or newly visits an on-disk file, and a visit of `p` pushes at most
`(effRecord p).imports.length` paths. -/
def segmentFuel (root : String) (d : Disk) (st : EngineState)
    (stack : List String) : Nat :=
  stack.length +
    ((d.files.map Prod.fst).toFinset.sum
      (fun p => (effRecord root d st p).imports.length)) + 1

/-- The per-file body of `buildSegment`'s repopulation loop: ensure the
file's entry exists and add the segment id to it. -/
def addStep (segmentId : String) (m : List (String × List String))
    (filePath : String) : List (String × List String) :=
  aset m filePath (sadd ((alookup m filePath).getD []) segmentId)

/-- The index-commit step of `buildSegment`: clear the old membership, then
repopulate both directions of the index from the new closure. -/
def commitMembership (segmentId : String) (visitedFiles : List String)
    (st : EngineState) : EngineState :=
  let st2 := clearSegmentMembership segmentId st
  let st3 := { st2 with
    segmentToFiles := aset st2.segmentToFiles segmentId visitedFiles }
  { st3 with
    fileToSegments := visitedFiles.foldl (addStep segmentId) st3.fileToSegments }

/-- `buildSegment`: traverse the closure from the definition's entries, then
commit membership to the segment index (clear, then repopulate both sides)
and write the manifest. -/
def buildSegment (root : String) (d : Disk) (now : Nat) (w : World)
    (segmentDefinition : SegmentDefinition) : World :=
  writeManifest root d now
    { w with
      engine := commitMembership segmentDefinition.id
          (buildLoop root d (segmentFuel root d w.engine segmentDefinition.entries)
            w.engine segmentDefinition.entries [] []).2.1
          (buildLoop root d (segmentFuel root d w.engine segmentDefinition.entries)
            w.engine segmentDefinition.entries [] []).1 }
    segmentDefinition
    (buildLoop root d (segmentFuel root d w.engine segmentDefinition.entries)
      w.engine segmentDefinition.entries [] []).2.1
    (buildLoop root d (segmentFuel root d w.engine segmentDefinition.entries)
      w.engine segmentDefinition.entries [] []).2.2

/-! ## Request fulfillment -/

/-- `getSegmentEntries`: the existing `layout.tsx` / `page.tsx` of the
segment's directory, sorted. -/
def getSegmentEntries (root : String) (d : Disk) (segmentId : String) :
    List String :=
  let segmentDirectory := pJoin root segmentId
  let layoutPath := normalizeFilePath root (pJoin segmentDirectory "layout.tsx")
  let pagePath := normalizeFilePath root (pJoin segmentDirectory "page.tsx")
  let entries : List String := []
  let entries := if d.existsF layoutPath then sadd entries layoutPath else entries
  let entries := if d.existsF pagePath then sadd entries pagePath else entries
  sortStrings entries

/-- `ensureSegmentDefinition`: re-derive the definition from disk; without a
layout entry the segment is removed and `null` returned. -/
def ensureSegmentDefinition (root : String) (d : Disk) (segmentId : String)
    (w : World) : Option SegmentDefinition × World :=
  let entries := getSegmentEntries root d segmentId
  let hasLayoutEntry := entries.any (fun entryPath => pBasename entryPath = "layout.tsx")
  if !hasLayoutEntry then (none, removeSegment root segmentId w)
  else
    let segmentDefinition : SegmentDefinition := ⟨entries, segmentId⟩
    (some segmentDefinition,
      { w with engine := { w.engine with
          segmentDefinitions :=
            aset w.engine.segmentDefinitions segmentId segmentDefinition } })

/-- `buildSegmentForId`. -/
def buildSegmentForId (root : String) (d : Disk) (now : Nat)
    (segmentId : String) (w : World) : World :=
  match ensureSegmentDefinition root d segmentId w with
  | (none, w') => w'
  | (some segmentDefinition, w') => buildSegment root d now w' segmentDefinition

/-- `isManifestRequest`: a missing, unparseable, or `files`-less manifest
file marks a pending request. -/
def isManifestRequest (w : World) (manifestPath : String) : Bool :=
  match alookup w.cacheFS manifestPath with
  | none => true
  | some DiskJson.invalid => true
  | some DiskJson.objNoFiles => true
  | some (DiskJson.manifest _) => false

/-- `getSegmentIdFromManifestPath`: the cache-root-relative directory
(`relativeDirectory` is written out in each branch), or `null` when it
escapes the cache root. -/
def getSegmentIdFromManifestPath (root manifestPath : String) : Option String :=
  if strStartsWith (toPosixPath (pRelative root (CACHE_DIR root)
        (pDirname manifestPath))) ".." ||
      pIsAbsolute (toPosixPath (pRelative root (CACHE_DIR root)
        (pDirname manifestPath))) then none
  else some (toPosixPath (pRelative root (CACHE_DIR root) (pDirname manifestPath)))

/-- `processManifestRequest` (the falsy-string test `if (!segmentId) return`
is the emptiness check on the returned id). -/
def processManifestRequest (root : String) (d : Disk) (now : Nat)
    (manifestPath : String) (w : World) : World :=
  let normalizedManifestPath := normalizeFilePath root manifestPath
  if pBasename normalizedManifestPath ≠ "manifest.json" then w
  else if !isManifestRequest w normalizedManifestPath then w
  else
    match getSegmentIdFromManifestPath root normalizedManifestPath with
    | none => w
    | some segmentId => if segmentId = "" then w
      else buildSegmentForId root d now segmentId w

/-! ## Invalidation engine -/

/-- `isEntryFile`. -/
def isEntryFile (root filePath : String) : Bool :=
  if !isWithin root (APP_DIR root) filePath then false
  else ENTRY_FILENAMES.contains (pBasename filePath)

/-- `getEntrySegmentId`. -/
def getEntrySegmentId (root filePath : String) : String :=
  toPosixPath (pRelative root root (pDirname filePath))

/-- `rebuildAllActiveSegments`. -/
def rebuildAllActiveSegments (root : String) (d : Disk) (now : Nat)
    (w : World) : World :=
  (sortStrings (w.engine.segmentDefinitions.map Prod.fst)).foldl
    (fun w' segmentId => buildSegmentForId root d now segmentId w') w

/-- The `if (segments)` union part of `rebuildImpactedSegments`'s loop body:
add every segment currently containing the file. -/
def unionStep (index : List (String × List String)) (acc : List String)
    (filePath : String) : List String :=
  match alookup index filePath with
  | some segments => segments.foldl (fun a segmentId => sadd a segmentId) acc
  | none => acc

/-- The full loop body of `rebuildImpactedSegments`: the fan-out union plus
the owning segment of a changed entry file. -/
def impactedStep (root : String) (index : List (String × List String))
    (defs : List (String × SegmentDefinition)) (acc : List String)
    (filePath : String) : List String :=
  if isEntryFile root filePath then
    if (alookup defs (getEntrySegmentId root filePath)).isSome then
      sadd (unionStep index acc filePath) (getEntrySegmentId root filePath)
    else unionStep index acc filePath
  else unionStep index acc filePath

/-- `rebuildImpactedSegments`: union the file-to-segments fan-out of the
changed files (plus the owning segment of a changed entry file), then
rebuild in sorted id order. -/
def rebuildImpactedSegments (root : String) (d : Disk) (now : Nat)
    (filePaths : List String) (w : World) : World :=
  (sortStrings (filePaths.foldl
      (impactedStep root w.engine.fileToSegments w.engine.segmentDefinitions)
      [])).foldl
    (fun w' segmentId => buildSegmentForId root d now segmentId w') w

/-- The per-event body of `handleSourceEvents`'s classification loop:
record the normalized path, evict it from the file cache, and track whether
a create/delete was seen. -/
def eventStep (root : String) (acc : Bool × List String × EngineState)
    (event : WatchEvent) : Bool × List String × EngineState :=
  (acc.1 || event.type = "create" || event.type = "delete",
    sadd acc.2.1 (normalizeFilePath root event.path),
    { acc.2.2 with
      cachedFiles := aerase acc.2.2.cachedFiles (normalizeFilePath root event.path) })

/-- `handleSourceEvents`: evict every changed path from the file cache; a
batch containing a create or delete rebuilds all active segments, otherwise
only the impacted ones are rebuilt. -/
def handleSourceEvents (root : String) (d : Disk) (now : Nat)
    (events : List WatchEvent) (w : World) : World :=
  if events.isEmpty then w
  else if (events.foldl (eventStep root) (false, [], w.engine)).1 then
    rebuildAllActiveSegments root d now
      { w with engine := (events.foldl (eventStep root) (false, [], w.engine)).2.2 }
  else
    rebuildImpactedSegments root d now
      (events.foldl (eventStep root) (false, [], w.engine)).2.1
      { w with engine := (events.foldl (eventStep root) (false, [], w.engine)).2.2 }

/-! ## Cache consistency -/

/-- What `getCachedFile` would compute for `p` from the current disk. -/
def canonRecord (root : String) (d : Disk) (p : String) : CachedFile :=
  if d.existsF p then computeFileRecord root d p else ⟨[], 0⟩

/-- Every cached record agrees with what recomputation from the current disk
would produce (true initially, and preserved by the engine as long as change
events keep evicting changed paths). -/
def CacheConsistent (root : String) (d : Disk) (st : EngineState) : Prop :=
  ∀ p c, alookup st.cachedFiles p = some c → c = canonRecord root d p

/-! ## Reachability

`ReachVia φ ex visited stack` captures the files the traversal loop can
still reach: paths obtained from a stack element or an import edge (`φ`),
normalized, passing the existence check, and not blocked by the visited
set. -/

inductive ReachVia (root : String) (φ : String → List String) (ex : String → Bool)
    (visited : List String) : List String → String → Prop
  | base {stack : List String} {p : String} : p ∈ stack →
      ex (normalizeFilePath root p) = true →
      normalizeFilePath root p ∉ visited →
      ReachVia root φ ex visited stack (normalizeFilePath root p)
  | step {stack : List String} {p q : String} :
      ReachVia root φ ex visited stack p → q ∈ φ p →
      ex (normalizeFilePath root q) = true →
      normalizeFilePath root q ∉ visited →
      ReachVia root φ ex visited stack (normalizeFilePath root q)

/-! ## Segment-index invariant -/

/-- The set of entries stored for a key (absent key = empty set). -/
def lookupSet (m : List (String × List String)) (k : String) : List String :=
  (alookup m k).getD []

/-- The two directions of the segment index are exact inverses. -/
def IndexInv (st : EngineState) : Prop :=
  ∀ f s, f ∈ lookupSet st.segmentToFiles s ↔ s ∈ lookupSet st.fileToSegments f

/-- Pointwise effect of `clearStep` on an entry. -/
def remSeg (segmentId : String) : Option (List String) → Option (List String)
  | none => none
  | some segments =>
    if (segments.filter (fun s => s ≠ segmentId)).isEmpty then none
    else some (segments.filter (fun s => s ≠ segmentId))

/-- Pointwise effect of `addStep` on an entry. -/
def addSeg (segmentId : String) (x : Option (List String)) : Option (List String) :=
  some (sadd (x.getD []) segmentId)

/-! ## Spec-side reachability

The statement of *Closure soundness* (§8): the set of files reachable from
the segment's entries by transitively following import edges that resolve
(to paths inside the source root — which `resolveImportPath` guarantees and
`isWithin` states explicitly) and whose target exists on disk. -/

inductive ReachableFile (root : String) (d : Disk) (entries : List String) :
    String → Prop
  | entry {p : String} : p ∈ entries →
      d.existsF (normalizeFilePath root p) = true →
      ReachableFile root d entries (normalizeFilePath root p)
  | step {p q : String} : ReachableFile root d entries p →
      q ∈ (computeFileRecord root d p).imports →
      isWithin root (SRC_DIR root) q = true →
      d.existsF (normalizeFilePath root q) = true →
      ReachableFile root d entries (normalizeFilePath root q)

/-! ## Spec-side descriptions of the invalidation pipeline (C6) and line
counting (C9), and concrete fixtures for the witnesses -/

/-- The claim's changed-path set: the normalized paths of a batch, in
first-seen order. -/
def specChangedFiles (root : String) (events : List WatchEvent) : List String :=
  events.foldl (fun changed e => sadd changed (normalizeFilePath root e.path)) []

/-- The claim's eviction step: every changed path leaves the file cache;
nothing else changes. -/
def evictChanged (root : String) (events : List WatchEvent) (w : World) : World :=
  { w with engine := { w.engine with
      cachedFiles := events.foldl
        (fun cf e => aerase cf (normalizeFilePath root e.path))
        w.engine.cachedFiles } }

/-- The claim's impacted set: the union, over all changed files, of the
Segment Index's file-to-segments lookup. -/
def impactedUnion (index : List (String × List String))
    (changed : List String) : List String :=
  changed.foldl (unionStep index) []

/-- Spec-side line-segment count: splitting a non-empty text at CRLF/LF
terminators yields one more segment than there are terminators. -/
def countLineTerminators : List Char → Nat
  | [] => 0
  | '\r' :: '\n' :: rest => countLineTerminators rest + 1
  | '\n' :: rest => countLineTerminators rest + 1
  | _ :: rest => countLineTerminators rest

/-- A two-file fixture: the layout imports `./x`. -/
def witDisk : Disk :=
  { files := [("/r/src/app/layout.tsx", "import X from './x';\nexport default X;"),
              ("/r/src/app/x.tsx", "export default 1;")],
    parseSpecs := fun _ p => if p = "/r/src/app/layout.tsx" then ["./x"] else [],
    requireResolve := fun c _ =>
      if c = "/r/src/app/x.tsx" || c = "/r/src/app/layout.tsx" then some c
      else none,
    isBuiltin := fun _ => false }

/-- An empty source tree. -/
def bareDisk : Disk :=
  { files := [],
    parseSpecs := fun _ _ => [],
    requireResolve := fun _ _ => none,
    isBuiltin := fun _ => false }

/-- A fresh engine: empty caches, empty cache directory. -/
def freshWorld : World := { engine := ⟨[], [], [], []⟩, cacheFS := [] }

/-- The `src/app` segment definition of the fixture. -/
def witSd : SegmentDefinition := ⟨["/r/src/app/layout.tsx"], "src/app"⟩


/-! ## Properties -/

theorem alookup_aset {α : Type} (m : List (String × α)) (k k' : String) (v : α) :
    alookup (aset m k v) k' = if k = k' then some v else alookup m k' := by
  induction m with
  | nil => simp [aset, alookup]
  | cons e rest ih =>
    obtain ⟨ek, ev⟩ := e
    by_cases h : ek = k
    · subst h
      simp [aset, alookup]
      by_cases h' : ek = k' <;> simp [h']
    · simp [aset, h, alookup]
      by_cases h' : ek = k'
      · subst h'
        simp [Ne.symm h, alookup]
      · simp [h', ih]

theorem alookup_aerase {α : Type} (m : List (String × α)) (k k' : String) :
    alookup (aerase m k) k' = if k = k' then none else alookup m k' := by
  induction m with
  | nil => simp [aerase, alookup]
  | cons e rest ih =>
    obtain ⟨ek, ev⟩ := e
    by_cases h : ek = k
    · subst h
      rw [show aerase ((ek, ev) :: rest) ek = aerase rest ek from by simp [aerase]]
      rw [ih]
      by_cases h' : ek = k' <;> simp [alookup, h']
    · rw [show aerase ((ek, ev) :: rest) k = (ek, ev) :: aerase rest k from by
        simp [aerase, h]]
      by_cases h' : ek = k'
      · subst h'
        have hne : ¬ k = ek := fun hk => h hk.symm
        simp [alookup, hne]
      · simp [alookup, h', ih]

theorem mem_sadd (s : List String) (x y : String) :
    y ∈ sadd s x ↔ y ∈ s ∨ y = x := by
  unfold sadd
  split
  · rename_i h
    have hx : x ∈ s := by simpa using h
    constructor
    · intro hy; exact Or.inl hy
    · rintro (hy | rfl)
      · exact hy
      · exact hx
  · simp

/-! ### Path algebra -/

theorem splitChars_no_sep (sep : Char) (l : List Char) (h : sep ∉ l) :
    splitChars sep l = [l] := by
  induction l with
  | nil => simp [splitChars]
  | cons c rest ih =>
    have hc : ¬ c = sep := fun hcs => h (hcs ▸ List.mem_cons_self c rest)
    have hrest : sep ∉ rest := fun hm => h (List.mem_cons_of_mem c hm)
    simp [splitChars, hc, ih hrest]

theorem splitChars_append_sep (sep : Char) (l rest : List Char) (h : sep ∉ l) :
    splitChars sep (l ++ sep :: rest) = l :: splitChars sep rest := by
  induction l with
  | nil => simp [splitChars]
  | cons c l' ih =>
    have hc : ¬ c = sep := fun hcs => h (hcs ▸ List.mem_cons_self c l')
    have hl' : sep ∉ l' := fun hm => h (List.mem_cons_of_mem c hm)
    rw [List.cons_append]
    rw [show splitChars sep (c :: (l' ++ sep :: rest)) =
        match splitChars sep (l' ++ sep :: rest) with
        | [] => [[c]]
        | l :: ls => (c :: l) :: ls from by simp [splitChars, hc]]
    rw [ih hl']

theorem splitChars_ne_nil (sep : Char) (l : List Char) : splitChars sep l ≠ [] := by
  cases l with
  | nil => simp [splitChars]
  | cons c rest =>
    by_cases hc : c = sep
    · simp [splitChars, hc]
    · simp only [splitChars, if_neg hc]
      cases splitChars sep rest <;> simp

theorem splitChars_joinChars (sep : Char) (L : List (List Char))
    (h : ∀ l ∈ L, sep ∉ l) (hne : L ≠ []) :
    splitChars sep (joinChars sep L) = L := by
  induction L with
  | nil => exact absurd rfl hne
  | cons l ls ih =>
    cases ls with
    | nil =>
      simp [joinChars, splitChars_no_sep sep l (h l (List.mem_cons_self l []))]
    | cons l2 ls2 =>
      rw [show joinChars sep (l :: l2 :: ls2) = l ++ sep :: joinChars sep (l2 :: ls2)
        from rfl]
      rw [splitChars_append_sep sep _ _ (h l (List.mem_cons_self l _))]
      rw [ih (fun x hx => h x (List.mem_cons_of_mem l hx)) (by simp)]

theorem mem_splitChars_no_sep (sep : Char) (l : List Char) (l' : List Char)
    (h : l' ∈ splitChars sep l) : sep ∉ l' := by
  induction l generalizing l' with
  | nil =>
    simp [splitChars] at h
    subst h; simp
  | cons c rest ih =>
    by_cases hc : c = sep
    · simp only [splitChars, if_pos hc] at h
      rcases List.mem_cons.mp h with h1 | h2
      · subst h1; simp
      · exact ih l' h2
    · simp only [splitChars, if_neg hc] at h
      rcases hsp : splitChars sep rest with _ | ⟨x, xs⟩
      · exact absurd hsp (splitChars_ne_nil sep rest)
      · rw [hsp] at h
        rcases List.mem_cons.mp h with h1 | h2
        · subst h1
          intro hm
          rcases List.mem_cons.mp hm with h3 | h4
          · exact hc h3.symm
          · exact ih x (hsp ▸ List.mem_cons_self x xs) h4
        · exact ih l' (hsp ▸ List.mem_cons_of_mem x h2)

theorem normAbsSegs_good (l acc : List String) (hacc : ∀ s ∈ acc, GoodSeg s)
    (hl : ∀ s ∈ l, '/' ∉ s.toList) :
    ∀ s ∈ normAbsSegs acc l, GoodSeg s := by
  induction l generalizing acc with
  | nil =>
    intro s hs
    rw [normAbsSegs] at hs
    exact hacc s (List.mem_reverse.mp hs)
  | cons x rest ih =>
    intro s hs
    have hrest : ∀ s ∈ rest, '/' ∉ s.toList :=
      fun s hsr => hl s (List.mem_cons_of_mem x hsr)
    by_cases h1 : x = "" ∨ x = "."
    · rw [show normAbsSegs acc (x :: rest) = normAbsSegs acc rest from by
        rcases h1 with h | h <;> simp [normAbsSegs, h]] at hs
      exact ih acc hacc hrest s hs
    · push_neg at h1
      by_cases h2 : x = ".."
      · rw [show normAbsSegs acc (x :: rest) = normAbsSegs acc.tail rest from by
          simp [normAbsSegs, h1.1, h1.2, h2]] at hs
        exact ih acc.tail (fun s hsm => hacc s (List.mem_of_mem_tail hsm)) hrest s hs
      · rw [show normAbsSegs acc (x :: rest) = normAbsSegs (x :: acc) rest from by
          simp [normAbsSegs, h1.1, h1.2, h2]] at hs
        refine ih (x :: acc) ?_ hrest s hs
        intro s hsm
        rcases List.mem_cons.mp hsm with h | h
        · subst h
          exact ⟨h1.1, h1.2, h2, hl _ (List.mem_cons_self _ rest)⟩
        · exact hacc s h

theorem normAbsSegs_of_good (l acc : List String) (h : ∀ s ∈ l, GoodSeg s) :
    normAbsSegs acc l = acc.reverse ++ l := by
  induction l generalizing acc with
  | nil => simp [normAbsSegs]
  | cons x rest ih =>
    have hx : GoodSeg x := h x (List.mem_cons_self x rest)
    rw [show normAbsSegs acc (x :: rest) = normAbsSegs (x :: acc) rest from by
      simp [normAbsSegs, hx.1, hx.2.1, hx.2.2.1]]
    rw [ih (x :: acc) (fun s hs => h s (List.mem_cons_of_mem x hs))]
    simp

theorem splitPath_joinSegs (L : List String) (h : ∀ s ∈ L, GoodSeg s)
    (hne : L ≠ []) : splitPath (joinSegs L) = "" :: L := by
  unfold splitPath joinSegs
  rw [show (String.mk ('/' :: joinChars '/' (L.map String.toList))).toList =
      '/' :: joinChars '/' (L.map String.toList) from rfl]
  rw [show splitChars '/' ('/' :: joinChars '/' (L.map String.toList)) =
      [] :: splitChars '/' (joinChars '/' (L.map String.toList)) from by
    simp [splitChars]]
  have hmem : ∀ l ∈ L.map String.toList, '/' ∉ l := by
    intro l hl
    rcases List.mem_map.mp hl with ⟨s, hs, rfl⟩
    exact (h s hs).2.2.2
  rw [splitChars_joinChars '/' (L.map String.toList) hmem (by simpa using hne)]
  rw [List.map_cons, List.map_map]
  rw [show String.mk [] = "" from rfl]
  congr 1
  have : (String.mk ∘ String.toList) = id := by
    funext s
    rfl
  rw [this, List.map_id]

theorem pNormalizeAbs_idem (p : String) :
    pNormalizeAbs (pNormalizeAbs p) = pNormalizeAbs p := by
  unfold pNormalizeAbs
  have hgood : ∀ s ∈ normAbsSegs [] (splitPath p), GoodSeg s := by
    refine normAbsSegs_good _ _ (by simp) ?_
    intro s hs
    unfold splitPath at hs
    rcases List.mem_map.mp hs with ⟨l, hl, rfl⟩
    exact mem_splitChars_no_sep '/' p.toList l hl
  by_cases hL : normAbsSegs [] (splitPath p) = []
  · rw [hL]
    rw [show splitPath (joinSegs []) = ["", ""] from rfl]
    rw [show normAbsSegs [] ["", ""] = ([] : List String) from rfl]
  · rw [splitPath_joinSegs _ hgood hL]
    rw [show normAbsSegs [] ("" :: normAbsSegs [] (splitPath p)) =
        normAbsSegs [] (normAbsSegs [] (splitPath p)) from by simp [normAbsSegs]]
    rw [normAbsSegs_of_good _ _ hgood]
    simp

theorem pIsAbsolute_pNormalizeAbs (p : String) :
    pIsAbsolute (pNormalizeAbs p) = true := by
  unfold pIsAbsolute pNormalizeAbs joinSegs
  rfl

theorem normalizeFilePath_idem (root p : String) :
    normalizeFilePath root (normalizeFilePath root p) = normalizeFilePath root p := by
  unfold normalizeFilePath
  rw [show pResolve root (pNormalizeAbs (pResolve root p)) =
      pNormalizeAbs (pNormalizeAbs (pResolve root p)) from by
    unfold pResolve
    rw [pIsAbsolute_pNormalizeAbs]
    simp]
  rw [pNormalizeAbs_idem, pNormalizeAbs_idem]

/-! ## Basic facts about the embedding -/

theorem mem_insertSorted (x y : String) (l : List String) :
    y ∈ insertSorted x l ↔ y = x ∨ y ∈ l := by
  induction l with
  | nil => simp [insertSorted]
  | cons z zs ih =>
    unfold insertSorted
    by_cases h : strLe x z
    · rw [if_pos h]
      simp only [List.mem_cons]
    · rw [if_neg h]
      simp only [List.mem_cons, ih]
      tauto

theorem mem_sortStrings (l : List String) (x : String) :
    x ∈ sortStrings l ↔ x ∈ l := by
  unfold sortStrings
  induction l with
  | nil => simp
  | cons y ys ih =>
    rw [List.foldr_cons, mem_insertSorted, List.mem_cons, ih]

theorem contains_iff (l : List String) (x : String) :
    l.contains x = true ↔ x ∈ l := by
  simp

theorem sadd_idem (l : List String) (x : String) : sadd (sadd l x) x = sadd l x := by
  have hx : x ∈ sadd l x := (mem_sadd l x x).mpr (Or.inr rfl)
  conv_lhs => rw [sadd]
  rw [if_pos ((contains_iff _ x).mpr hx)]

/-- Keys of `aset`. -/
theorem mem_keys_aset {α : Type} (m : List (String × α)) (k k' : String) (v : α) :
    k' ∈ (aset m k v).map Prod.fst ↔ k' ∈ m.map Prod.fst ∨ k' = k := by
  induction m with
  | nil => simp [aset]
  | cons e rest ih =>
    obtain ⟨ek, ev⟩ := e
    by_cases h : ek = k
    · subst h
      rw [show aset ((ek, ev) :: rest) ek v = (ek, v) :: rest from by simp [aset]]
      simp only [List.map_cons, List.mem_cons]
      tauto
    · rw [show aset ((ek, ev) :: rest) k v = (ek, ev) :: aset rest k v from by
        simp [aset, h]]
      simp only [List.map_cons, List.mem_cons, ih]
      tauto

/-- Elements of `aset`. -/
theorem mem_aset {α : Type} (m : List (String × α)) (k : String) (v : α)
    (x : String × α) (hx : x ∈ aset m k v) : x ∈ m ∨ x = (k, v) := by
  induction m with
  | nil => simpa [aset] using hx
  | cons e rest ih =>
    obtain ⟨ek, ev⟩ := e
    by_cases h : ek = k
    · subst h
      rw [show aset ((ek, ev) :: rest) ek v = (ek, v) :: rest from by
        simp [aset]] at hx
      rcases List.mem_cons.mp hx with h1 | h1
      · exact Or.inr h1
      · exact Or.inl (List.mem_cons_of_mem _ h1)
    · rw [show aset ((ek, ev) :: rest) k v = (ek, ev) :: aset rest k v from by
        simp [aset, h]] at hx
      rcases List.mem_cons.mp hx with h1 | h1
      · exact Or.inl (h1 ▸ List.mem_cons_self _ _)
      · rcases ih h1 with h2 | h2
        · exact Or.inl (List.mem_cons_of_mem _ h2)
        · exact Or.inr h2

/-- `getCachedFile` always returns the effective record of the normalized
path. -/
theorem getCachedFile_fst (root : String) (d : Disk) (st : EngineState)
    (filePath : String) :
    (getCachedFile root d st filePath).1 =
      effRecord root d st (normalizeFilePath root filePath) := by
  unfold getCachedFile effRecord
  split
  · rfl
  · by_cases he : d.existsF (normalizeFilePath root filePath)
    · rw [if_neg (by simp [he]), if_pos he]
    · rw [if_pos (by simp [he]), if_neg he]

/-- `getCachedFile` never changes any effective record: it only installs the
very record that recomputation would produce. -/
theorem effRecord_getCachedFile (root : String) (d : Disk) (st : EngineState)
    (filePath q : String) :
    effRecord root d (getCachedFile root d st filePath).2 q =
      effRecord root d st q := by
  unfold getCachedFile
  split
  · rfl
  · rename_i h
    by_cases he : d.existsF (normalizeFilePath root filePath)
    · rw [if_neg (by simp [he])]
      unfold effRecord
      simp only
      rw [alookup_aset]
      by_cases hq : normalizeFilePath root filePath = q
      · subst hq
        simp [h, he]
      · simp [hq]
    · rw [if_pos (by simp [he])]
      unfold effRecord
      simp only
      rw [alookup_aset]
      by_cases hq : normalizeFilePath root filePath = q
      · subst hq
        simp [h, he]
      · simp [hq]

/-- `getCachedFile` touches only the file cache. -/
theorem getCachedFile_index (root : String) (d : Disk) (st : EngineState)
    (filePath : String) :
    (getCachedFile root d st filePath).2.fileToSegments = st.fileToSegments ∧
    (getCachedFile root d st filePath).2.segmentToFiles = st.segmentToFiles ∧
    (getCachedFile root d st filePath).2.segmentDefinitions = st.segmentDefinitions := by
  unfold getCachedFile
  split
  · simp
  · by_cases he : d.existsF (normalizeFilePath root filePath)
    · rw [if_neg (by simp [he])]
      simp
    · rw [if_pos (by simp [he])]
      simp

/-- `getCachedFile` on a path that normalizes away from `q` leaves the cache
entry at `q` alone. -/
theorem getCachedFile_cache_other (root : String) (d : Disk) (st : EngineState)
    (filePath q : String) (hq : normalizeFilePath root filePath ≠ q) :
    alookup (getCachedFile root d st filePath).2.cachedFiles q =
      alookup st.cachedFiles q := by
  unfold getCachedFile
  split
  · rfl
  · by_cases he : d.existsF (normalizeFilePath root filePath)
    · rw [if_neg (by simp [he])]
      simp only
      rw [alookup_aset, if_neg hq]
    · rw [if_pos (by simp [he])]
      simp only
      rw [alookup_aset, if_neg hq]

/-! ## Resolved imports are normalized, in-root paths -/

theorem firstResolved_normalized (root : String) (d : Disk) (dir : String)
    (cands : List String) (q : String)
    (h : firstResolved root d dir cands = some q) :
    normalizeFilePath root q = q ∧ isWithin root (SRC_DIR root) q = true := by
  induction cands with
  | nil => simp [firstResolved] at h
  | cons c rest ih =>
    unfold firstResolved at h
    cases hr : d.requireResolve c dir with
    | none =>
      rw [hr] at h
      exact ih h
    | some r =>
      rw [hr] at h
      simp only at h
      by_cases hw : isWithin root (SRC_DIR root) (normalizeFilePath root r)
      · rw [if_pos hw] at h
        cases h
        exact ⟨normalizeFilePath_idem root r, hw⟩
      · rw [if_neg hw] at h
        exact ih h

theorem resolveImportPath_normalized (root : String) (d : Disk)
    (sourceFilePath importSpecifier q : String)
    (h : resolveImportPath root d sourceFilePath importSpecifier = some q) :
    normalizeFilePath root q = q ∧ isWithin root (SRC_DIR root) q = true := by
  unfold resolveImportPath at h
  by_cases hb : d.isBuiltin importSpecifier
  · simp [hb] at h
  · rw [if_neg hb] at h
    exact firstResolved_normalized _ _ _ _ _ h

theorem mem_foldl_sadd_resolve (root : String) (d : Disk) (p : String)
    (l : List String) (q : String) :
    ∀ acc : List String,
      q ∈ l.foldl (fun acc importSpecifier =>
        match resolveImportPath root d p importSpecifier with
        | some resolvedImportPath => sadd acc resolvedImportPath
        | none => acc) acc →
      q ∈ acc ∨ ∃ s ∈ l, resolveImportPath root d p s = some q := by
  induction l with
  | nil =>
    intro acc h
    exact Or.inl h
  | cons x rest ih =>
    intro acc h
    rw [List.foldl_cons] at h
    cases hr : resolveImportPath root d p x with
    | none =>
      rw [hr] at h
      rcases ih _ h with h1 | ⟨s, hs, hres⟩
      · exact Or.inl h1
      · exact Or.inr ⟨s, List.mem_cons_of_mem x hs, hres⟩
    | some rp =>
      rw [hr] at h
      rcases ih _ h with h1 | ⟨s, hs, hres⟩
      · rcases (mem_sadd acc rp q).mp h1 with h2 | rfl
        · exact Or.inl h2
        · exact Or.inr ⟨x, List.mem_cons_self x rest, hr⟩
      · exact Or.inr ⟨s, List.mem_cons_of_mem x hs, hres⟩

theorem computeFileRecord_imports (root : String) (d : Disk) (p q : String)
    (h : q ∈ (computeFileRecord root d p).imports) :
    normalizeFilePath root q = q ∧ isWithin root (SRC_DIR root) q = true := by
  unfold computeFileRecord at h
  simp only at h
  rw [mem_sortStrings] at h
  rcases mem_foldl_sadd_resolve root d p _ q [] h with h1 | ⟨s, _, hres⟩
  · simp at h1
  · exact resolveImportPath_normalized root d p s q hres

theorem effRecord_eq_canon (root : String) (d : Disk) (st : EngineState)
    (hcc : CacheConsistent root d st) (p : String) :
    effRecord root d st p = canonRecord root d p := by
  unfold effRecord
  cases h : alookup st.cachedFiles p with
  | some c => exact hcc p c h
  | none => rfl

theorem canonRecord_imports_normalized (root : String) (d : Disk) (p q : String)
    (h : q ∈ (canonRecord root d p).imports) : normalizeFilePath root q = q := by
  unfold canonRecord at h
  by_cases he : d.existsF p
  · rw [if_pos he] at h
    exact (computeFileRecord_imports root d p q h).1
  · rw [if_neg he] at h
    simp at h

theorem ReachVia_node {root : String} {φ : String → List String}
    {ex : String → Bool} {visited stack : List String} {q : String}
    (h : ReachVia root φ ex visited stack q) :
    normalizeFilePath root q = q ∧ ex q = true ∧ q ∉ visited := by
  cases h with
  | base hp hex hnv => exact ⟨normalizeFilePath_idem root _, hex, hnv⟩
  | step hr hq hex hnv => exact ⟨normalizeFilePath_idem root _, hex, hnv⟩

theorem ReachVia_nil {root : String} {φ : String → List String}
    {ex : String → Bool} {visited : List String} {q : String}
    (h : ReachVia root φ ex visited [] q) : False := by
  generalize hs : ([] : List String) = stack at h
  induction h with
  | base hp _ _ => rw [← hs] at hp; exact List.not_mem_nil _ hp
  | step _ _ _ _ ih => exact ih

theorem ReachVia_mono {root : String} {φ : String → List String}
    {ex : String → Bool} {visited stack stack' : List String} {q : String}
    (hsub : ∀ x ∈ stack, x ∈ stack')
    (h : ReachVia root φ ex visited stack q) :
    ReachVia root φ ex visited stack' q := by
  induction h with
  | base hp hex hnv => exact ReachVia.base (hsub _ hp) hex hnv
  | step _ hq hex hnv ih => exact ReachVia.step ih hq hex hnv

/-- Popping a stack element that is already visited or does not exist does
not change what is reachable. -/
theorem ReachVia_skip_iff {root : String} {φ : String → List String}
    {ex : String → Bool} {visited : List String} {s : String}
    {rest : List String}
    (hskip : normalizeFilePath root s ∈ visited ∨
      ex (normalizeFilePath root s) = false) (q : String) :
    ReachVia root φ ex visited (s :: rest) q ↔
      ReachVia root φ ex visited rest q := by
  constructor
  · intro h
    generalize hst : s :: rest = stack at h
    induction h with
    | base hp hex hnv =>
      rw [← hst] at hp
      rcases List.mem_cons.mp hp with rfl | hp'
      · rcases hskip with h1 | h1
        · exact absurd h1 hnv
        · rw [hex] at h1; cases h1
      · exact ReachVia.base hp' hex hnv
    | step _ hq hex hnv ih => exact ReachVia.step ih hq hex hnv
  · intro h
    exact ReachVia_mono (fun x hx => List.mem_cons_of_mem s hx) h

/-- Visiting the top of the stack: afterwards the same files are accounted
for, either as the new visited node or as reachable from the unvisited
imports pushed in its place. -/
theorem ReachVia_visit_iff {root : String} {φ : String → List String}
    {ex : String → Bool} {visited : List String} {s : String}
    {rest : List String}
    (HN : ∀ p q, q ∈ φ p → normalizeFilePath root q = q)
    (hPex : ex (normalizeFilePath root s) = true)
    (hPnv : normalizeFilePath root s ∉ visited) (q : String) :
    (q ∈ visited ∨ ReachVia root φ ex visited (s :: rest) q) ↔
      (q ∈ visited ++ [normalizeFilePath root s] ∨
        ReachVia root φ ex (visited ++ [normalizeFilePath root s])
          ((φ (normalizeFilePath root s)).filter
            (fun x => !(visited ++ [normalizeFilePath root s]).contains x) ++ rest) q) := by
  constructor
  · rintro (hq | hq)
    · exact Or.inl (List.mem_append_left _ hq)
    · generalize hst : s :: rest = stack at hq
      induction hq with
      | base hp hex hnv =>
        rw [← hst] at hp
        rename_i p
        by_cases hP : normalizeFilePath root p = normalizeFilePath root s
        · rw [hP]
          exact Or.inl (List.mem_append_right _ (List.mem_singleton.mpr rfl))
        · rcases List.mem_cons.mp hp with rfl | hp'
          · exact absurd rfl hP
          · refine Or.inr (ReachVia.base (List.mem_append_right _ hp') hex ?_)
            intro hm
            rcases List.mem_append.mp hm with hm1 | hm1
            · exact hnv hm1
            · exact hP (List.mem_singleton.mp hm1)
      | step hr hq' hex hnv ih =>
        rename_i p x
        by_cases hP : normalizeFilePath root x = normalizeFilePath root s
        · rw [hP]
          exact Or.inl (List.mem_append_right _ (List.mem_singleton.mpr rfl))
        · have hnv' : normalizeFilePath root x ∉
              visited ++ [normalizeFilePath root s] := by
            intro hm
            rcases List.mem_append.mp hm with hm1 | hm1
            · exact hnv hm1
            · exact hP (List.mem_singleton.mp hm1)
          rcases ih with hpv | hpr
          · -- the predecessor is the newly visited node
            rcases List.mem_append.mp hpv with hm1 | hm1
            · exact absurd hm1 (ReachVia_node hr).2.2
            · have hps : p = normalizeFilePath root s := List.mem_singleton.mp hm1
              have hxn : normalizeFilePath root x = x := HN p x hq'
              have hxmem : x ∈ (φ (normalizeFilePath root s)).filter
                  (fun y => !(visited ++ [normalizeFilePath root s]).contains y) := by
                rw [List.mem_filter]
                refine ⟨hps ▸ hq', ?_⟩
                have hx' : x ∉ visited ++ [normalizeFilePath root s] := by
                  intro hm
                  refine hnv' ?_
                  rw [hxn]
                  exact hm
                simpa using hx'
              exact Or.inr (@ReachVia.base root φ ex
                (visited ++ [normalizeFilePath root s]) _ _
                (List.mem_append_left rest hxmem) hex hnv')
          · exact Or.inr (ReachVia.step hpr hq' hex hnv')
  · rintro (hq | hq)
    · rcases List.mem_append.mp hq with hm | hm
      · exact Or.inl hm
      · rw [List.mem_singleton.mp hm]
        exact Or.inr (ReachVia.base (List.mem_cons_self s rest) hPex hPnv)
    · refine Or.inr ?_
      generalize hst : (φ (normalizeFilePath root s)).filter
        (fun x => !(visited ++ [normalizeFilePath root s]).contains x) ++ rest
          = stack at hq
      induction hq with
      | base hp hex hnv =>
        rename_i p
        have hnvv : normalizeFilePath root p ∉ visited :=
          fun hm => hnv (List.mem_append_left _ hm)
        rw [← hst] at hp
        rcases List.mem_append.mp hp with hm | hm
        · have hpφ : p ∈ φ (normalizeFilePath root s) := (List.mem_filter.mp hm).1
          exact ReachVia.step
            (ReachVia.base (List.mem_cons_self s rest) hPex hPnv) hpφ hex hnvv
        · exact ReachVia.base (List.mem_cons_of_mem s hm) hex hnvv
      | step hr hq' hex hnv ih =>
        have hnvv : normalizeFilePath root _ ∉ visited :=
          fun hm => hnv (List.mem_append_left _ hm)
        exact ReachVia.step ih hq' hex hnvv

/-! ## Loop equations and invariants -/

theorem buildLoop_zero (root : String) (d : Disk) (st : EngineState)
    (stack visited : List String) (deps : List (String × List String)) :
    buildLoop root d 0 st stack visited deps = (st, visited, deps) := rfl

theorem buildLoop_succ_nil (root : String) (d : Disk) (n : Nat) (st : EngineState)
    (visited : List String) (deps : List (String × List String)) :
    buildLoop root d (n + 1) st [] visited deps = (st, visited, deps) := rfl

theorem buildLoop_succ_visited (root : String) (d : Disk) (n : Nat)
    (st : EngineState) (s : String) (rest visited : List String)
    (deps : List (String × List String))
    (hv : visited.contains (normalizeFilePath root s) = true) :
    buildLoop root d (n + 1) st (s :: rest) visited deps =
      buildLoop root d n st rest visited deps := by
  simp only [buildLoop]
  rw [if_pos hv]

theorem buildLoop_succ_missing (root : String) (d : Disk) (n : Nat)
    (st : EngineState) (s : String) (rest visited : List String)
    (deps : List (String × List String))
    (hv : ¬ visited.contains (normalizeFilePath root s) = true)
    (he : ¬ d.existsF (normalizeFilePath root s) = true) :
    buildLoop root d (n + 1) st (s :: rest) visited deps =
      buildLoop root d n st rest visited deps := by
  simp only [buildLoop]
  rw [if_neg hv, if_pos (by simp [he])]

theorem buildLoop_succ_visit (root : String) (d : Disk) (n : Nat)
    (st : EngineState) (s : String) (rest visited : List String)
    (deps : List (String × List String))
    (hv : ¬ visited.contains (normalizeFilePath root s) = true)
    (he : d.existsF (normalizeFilePath root s) = true) :
    buildLoop root d (n + 1) st (s :: rest) visited deps =
      buildLoop root d n (getCachedFile root d st (normalizeFilePath root s)).2
        ((getCachedFile root d st (normalizeFilePath root s)).1.imports.filter
          (fun importPath =>
            !(visited ++ [normalizeFilePath root s]).contains importPath) ++ rest)
        (visited ++ [normalizeFilePath root s])
        (aset deps (normalizeFilePath root s)
          (getCachedFile root d st (normalizeFilePath root s)).1.imports) := by
  simp only [buildLoop]
  rw [if_neg hv, if_neg (by simp [he])]

/-- The loop never changes an effective record. -/
theorem buildLoop_eff (root : String) (d : Disk) :
    ∀ (fuel : Nat) (st : EngineState) (stack visited : List String)
      (deps : List (String × List String)) (q : String),
      effRecord root d (buildLoop root d fuel st stack visited deps).1 q =
        effRecord root d st q := by
  intro fuel
  induction fuel with
  | zero => intro st stack visited deps q; rfl
  | succ n ih =>
    intro st stack visited deps q
    cases stack with
    | nil => rfl
    | cons s rest =>
      by_cases hv : visited.contains (normalizeFilePath root s) = true
      · rw [buildLoop_succ_visited root d n st s rest visited deps hv]
        exact ih st rest visited deps q
      · by_cases he : d.existsF (normalizeFilePath root s) = true
        · rw [buildLoop_succ_visit root d n st s rest visited deps hv he]
          rw [ih]
          exact effRecord_getCachedFile root d st (normalizeFilePath root s) q
        · rw [buildLoop_succ_missing root d n st s rest visited deps hv he]
          exact ih st rest visited deps q

/-- The loop never touches the segment index or the definitions. -/
theorem buildLoop_index (root : String) (d : Disk) :
    ∀ (fuel : Nat) (st : EngineState) (stack visited : List String)
      (deps : List (String × List String)),
      (buildLoop root d fuel st stack visited deps).1.fileToSegments =
        st.fileToSegments ∧
      (buildLoop root d fuel st stack visited deps).1.segmentToFiles =
        st.segmentToFiles ∧
      (buildLoop root d fuel st stack visited deps).1.segmentDefinitions =
        st.segmentDefinitions := by
  intro fuel
  induction fuel with
  | zero => intro st stack visited deps; exact ⟨rfl, rfl, rfl⟩
  | succ n ih =>
    intro st stack visited deps
    cases stack with
    | nil => exact ⟨rfl, rfl, rfl⟩
    | cons s rest =>
      by_cases hv : visited.contains (normalizeFilePath root s) = true
      · rw [buildLoop_succ_visited root d n st s rest visited deps hv]
        exact ih st rest visited deps
      · by_cases he : d.existsF (normalizeFilePath root s) = true
        · rw [buildLoop_succ_visit root d n st s rest visited deps hv he]
          have h1 := ih (getCachedFile root d st (normalizeFilePath root s)).2
            ((getCachedFile root d st (normalizeFilePath root s)).1.imports.filter
              (fun importPath =>
                !(visited ++ [normalizeFilePath root s]).contains importPath) ++ rest)
            (visited ++ [normalizeFilePath root s])
            (aset deps (normalizeFilePath root s)
              (getCachedFile root d st (normalizeFilePath root s)).1.imports)
          have h2 := getCachedFile_index root d st (normalizeFilePath root s)
          exact ⟨h1.1.trans h2.1, h1.2.1.trans h2.2.1, h1.2.2.trans h2.2.2⟩
        · rw [buildLoop_succ_missing root d n st s rest visited deps hv he]
          exact ih st rest visited deps

/-- The loop never creates a cache entry for a path that is missing on disk:
it only ever fetches existing files. -/
theorem buildLoop_cache_missing (root : String) (d : Disk) (q : String)
    (hq : d.existsF q = false) :
    ∀ (fuel : Nat) (st : EngineState) (stack visited : List String)
      (deps : List (String × List String)),
      alookup st.cachedFiles q = none →
      alookup (buildLoop root d fuel st stack visited deps).1.cachedFiles q = none := by
  intro fuel
  induction fuel with
  | zero => intro st stack visited deps h; exact h
  | succ n ih =>
    intro st stack visited deps h
    cases stack with
    | nil => exact h
    | cons s rest =>
      by_cases hv : visited.contains (normalizeFilePath root s) = true
      · rw [buildLoop_succ_visited root d n st s rest visited deps hv]
        exact ih st rest visited deps h
      · by_cases he : d.existsF (normalizeFilePath root s) = true
        · rw [buildLoop_succ_visit root d n st s rest visited deps hv he]
          refine ih _ _ _ _ ?_
          rw [getCachedFile_cache_other root d st (normalizeFilePath root s) q ?_]
          · exact h
          · rw [normalizeFilePath_idem root s]
            intro hc
            rw [hc] at he
            rw [he] at hq
            cases hq
        · rw [buildLoop_succ_missing root d n st s rest visited deps hv he]
          exact ih st rest visited deps h

/-- The traversal visits exactly the reachable files: given enough fuel, the
final visited set is the initial one plus everything `ReachVia`-reachable
from the stack. -/
theorem buildLoop_visited_iff (root : String) (d : Disk)
    (φ : String → List String)
    (HN : ∀ p q, q ∈ φ p → normalizeFilePath root q = q) :
    ∀ (fuel : Nat) (st : EngineState) (stack visited : List String)
      (deps : List (String × List String)),
      (∀ x, (effRecord root d st x).imports = φ x) →
      stack.length + ((d.files.map Prod.fst).toFinset \ visited.toFinset).sum
        (fun x => (φ x).length) < fuel →
      ∀ p, p ∈ (buildLoop root d fuel st stack visited deps).2.1 ↔
        (p ∈ visited ∨ ReachVia root φ d.existsF visited stack p) := by
  intro fuel
  induction fuel with
  | zero =>
    intro st stack visited deps hφ hfuel
    exact absurd hfuel (Nat.not_lt_zero _)
  | succ n ih =>
    intro st stack visited deps hφ hfuel p
    cases stack with
    | nil =>
      rw [buildLoop_succ_nil]
      simp only
      constructor
      · intro h; exact Or.inl h
      · rintro (h | h)
        · exact h
        · exact absurd h (fun hh => ReachVia_nil hh)
    | cons s rest =>
      have hfuel_tail : rest.length +
          ((d.files.map Prod.fst).toFinset \ visited.toFinset).sum
            (fun x => (φ x).length) < n := by
        rw [List.length_cons] at hfuel
        omega
      by_cases hv : visited.contains (normalizeFilePath root s) = true
      · rw [buildLoop_succ_visited root d n st s rest visited deps hv]
        rw [ih st rest visited deps hφ hfuel_tail p]
        rw [ReachVia_skip_iff (Or.inl ((contains_iff _ _).mp hv)) p]
      · by_cases he : d.existsF (normalizeFilePath root s) = true
        · rw [buildLoop_succ_visit root d n st s rest visited deps hv he]
          have hfd : (getCachedFile root d st (normalizeFilePath root s)).1.imports =
              φ (normalizeFilePath root s) := by
            rw [getCachedFile_fst, normalizeFilePath_idem]
            exact hφ _
          rw [hfd]
          have hφ' : ∀ x,
              (effRecord root d (getCachedFile root d st
                (normalizeFilePath root s)).2 x).imports = φ x := by
            intro x
            rw [effRecord_getCachedFile]
            exact hφ x
          have hPnv : normalizeFilePath root s ∉ visited :=
            fun hm => hv ((contains_iff _ _).mpr hm)
          have hPmem : normalizeFilePath root s ∈
              (d.files.map Prod.fst).toFinset \ visited.toFinset := by
            rw [Finset.mem_sdiff, List.mem_toFinset, List.mem_toFinset]
            exact ⟨(contains_iff _ _).mp he, hPnv⟩
          have hsetEq : (d.files.map Prod.fst).toFinset \
              (visited ++ [normalizeFilePath root s]).toFinset =
              ((d.files.map Prod.fst).toFinset \ visited.toFinset).erase
                (normalizeFilePath root s) := by
            ext x
            simp only [Finset.mem_sdiff, List.mem_toFinset, List.toFinset_append,
              Finset.mem_union, Finset.mem_erase, List.mem_append,
              List.mem_singleton, List.toFinset_cons, List.toFinset_nil,
              insert_emptyc_eq, Finset.mem_insert, Finset.mem_singleton]
            tauto
          have hsum : (((d.files.map Prod.fst).toFinset \ visited.toFinset).erase
              (normalizeFilePath root s)).sum (fun x => (φ x).length) +
              (φ (normalizeFilePath root s)).length =
              ((d.files.map Prod.fst).toFinset \ visited.toFinset).sum
                (fun x => (φ x).length) := by
            simpa using Finset.sum_erase_add
              ((d.files.map Prod.fst).toFinset \ visited.toFinset)
              (fun x => (φ x).length) hPmem
          have hflen : ((φ (normalizeFilePath root s)).filter
              (fun importPath =>
                !(visited ++ [normalizeFilePath root s]).contains importPath)).length ≤
              (φ (normalizeFilePath root s)).length :=
            List.length_filter_le _ _
          have hfuel' : ((φ (normalizeFilePath root s)).filter
              (fun importPath =>
                !(visited ++ [normalizeFilePath root s]).contains importPath) ++
                rest).length +
              ((d.files.map Prod.fst).toFinset \
                (visited ++ [normalizeFilePath root s]).toFinset).sum
                (fun x => (φ x).length) < n := by
            rw [List.length_append, hsetEq, List.length_cons] at *
            omega
          rw [ih _ _ _ _ hφ' hfuel' p]
          exact (ReachVia_visit_iff HN he hPnv p).symm
        · rw [buildLoop_succ_missing root d n st s rest visited deps hv he]
          rw [ih st rest visited deps hφ hfuel_tail p]
          rw [ReachVia_skip_iff (Or.inr (by simpa using he)) p]

theorem remSeg_some (sid : String) (segs : List String) :
    remSeg sid (some segs) =
      if (segs.filter (fun s => s ≠ sid)).isEmpty then none
      else some (segs.filter (fun s => s ≠ sid)) := rfl

theorem remSeg_idem (sid : String) (x : Option (List String)) :
    remSeg sid (remSeg sid x) = remSeg sid x := by
  cases x with
  | none => rfl
  | some segs =>
    rw [remSeg_some]
    by_cases h : (segs.filter (fun s => s ≠ sid)).isEmpty
    · rw [if_pos h]
      rfl
    · rw [if_neg h, remSeg_some]
      simp only [List.filter_filter]
      rw [show (fun s => decide (s ≠ sid) && decide (s ≠ sid)) =
          (fun s => decide (s ≠ sid)) from by funext s; cases decide (s ≠ sid) <;> rfl]
      rw [if_neg h]

theorem mem_remSeg (sid s : String) (hs : s ≠ sid) (x : Option (List String)) :
    s ∈ (remSeg sid x).getD [] ↔ s ∈ x.getD [] := by
  cases x with
  | none => rfl
  | some segs =>
    rw [remSeg_some]
    by_cases h : (segs.filter (fun y => y ≠ sid)).isEmpty
    · rw [if_pos h]
      simp only [Option.getD_none, Option.getD_some, List.not_mem_nil, false_iff]
      intro hm
      have : s ∈ segs.filter (fun y => y ≠ sid) :=
        List.mem_filter.mpr ⟨hm, by simp [hs]⟩
      rw [List.isEmpty_iff] at h
      rw [h] at this
      exact List.not_mem_nil s this
    · rw [if_neg h]
      simp only [Option.getD_some, List.mem_filter]
      constructor
      · intro hm; exact hm.1
      · intro hm; exact ⟨hm, by simp [hs]⟩

theorem not_mem_remSeg (sid : String) (x : Option (List String)) :
    sid ∉ (remSeg sid x).getD [] := by
  cases x with
  | none => simp [remSeg]
  | some segs =>
    rw [remSeg_some]
    by_cases h : (segs.filter (fun y => y ≠ sid)).isEmpty
    · rw [if_pos h]; simp
    · rw [if_neg h]
      simp only [Option.getD_some, List.mem_filter]
      rintro ⟨-, hc⟩
      simp at hc

theorem clearStep_lookup (sid : String) (m : List (String × List String))
    (fp f : String) :
    alookup (clearStep sid m fp) f =
      if f = fp then remSeg sid (alookup m f) else alookup m f := by
  cases hl : alookup m fp with
  | none =>
    rw [show clearStep sid m fp = m from by unfold clearStep; rw [hl]]
    by_cases hf : f = fp
    · subst hf; rw [if_pos rfl, hl]; rfl
    · rw [if_neg hf]
  | some segs =>
    rw [show clearStep sid m fp =
        (if (segs.filter (fun s => s ≠ sid)).isEmpty then aerase m fp
         else aset m fp (segs.filter (fun s => s ≠ sid))) from by
      unfold clearStep; rw [hl]]
    by_cases he : (segs.filter (fun s => s ≠ sid)).isEmpty
    · rw [if_pos he, alookup_aerase]
      by_cases hf : f = fp
      · subst hf
        rw [if_pos rfl, if_pos rfl, hl, remSeg_some]
        rw [if_pos he]
      · rw [if_neg (fun hc => hf hc.symm), if_neg hf]
    · rw [if_neg he, alookup_aset]
      by_cases hf : f = fp
      · subst hf
        rw [if_pos rfl, if_pos rfl, hl, remSeg_some]
        rw [if_neg he]
      · rw [if_neg (fun hc => hf hc.symm), if_neg hf]

theorem clearFold_lookup (sid : String) :
    ∀ (files : List String) (m : List (String × List String)) (f : String),
      alookup (files.foldl (clearStep sid) m) f =
        if f ∈ files then remSeg sid (alookup m f) else alookup m f := by
  intro files
  induction files with
  | nil => intro m f; simp
  | cons fp rest ih =>
    intro m f
    rw [List.foldl_cons, ih, clearStep_lookup]
    by_cases hr : f ∈ rest
    · rw [if_pos hr, if_pos (List.mem_cons_of_mem fp hr)]
      by_cases hf : f = fp
      · rw [if_pos hf, remSeg_idem]
      · rw [if_neg hf]
    · rw [if_neg hr]
      by_cases hf : f = fp
      · rw [if_pos hf, if_pos (hf ▸ List.mem_cons_self fp rest)]
      · rw [if_neg hf, if_neg (by simp [hf, hr])]

theorem addSeg_idem (sid : String) (x : Option (List String)) :
    addSeg sid (addSeg sid x) = addSeg sid x := by
  unfold addSeg
  rw [Option.getD_some, sadd_idem]

theorem addStep_lookup (sid : String) (m : List (String × List String))
    (fp f : String) :
    alookup (addStep sid m fp) f =
      if f = fp then addSeg sid (alookup m f) else alookup m f := by
  unfold addStep
  rw [alookup_aset]
  by_cases hf : f = fp
  · subst hf
    rw [if_pos rfl, if_pos rfl]
    rfl
  · rw [if_neg (fun hc => hf hc.symm), if_neg hf]

theorem addFold_lookup (sid : String) :
    ∀ (files : List String) (m : List (String × List String)) (f : String),
      alookup (files.foldl (addStep sid) m) f =
        if f ∈ files then addSeg sid (alookup m f) else alookup m f := by
  intro files
  induction files with
  | nil => intro m f; simp
  | cons fp rest ih =>
    intro m f
    rw [List.foldl_cons, ih, addStep_lookup]
    by_cases hr : f ∈ rest
    · rw [if_pos hr, if_pos (List.mem_cons_of_mem fp hr)]
      by_cases hf : f = fp
      · rw [if_pos hf, addSeg_idem]
      · rw [if_neg hf]
    · rw [if_neg hr]
      by_cases hf : f = fp
      · rw [if_pos hf, if_pos (hf ▸ List.mem_cons_self fp rest)]
      · rw [if_neg hf, if_neg (by simp [hf, hr])]

theorem clearSegmentMembership_stf_self (sid : String) (st : EngineState) :
    alookup (clearSegmentMembership sid st).segmentToFiles sid = none := by
  unfold clearSegmentMembership
  cases hl : alookup st.segmentToFiles sid with
  | none => exact hl
  | some segs =>
    simp only
    rw [alookup_aerase, if_pos rfl]

theorem clearSegmentMembership_stf_other (sid s : String) (st : EngineState)
    (hs : s ≠ sid) :
    alookup (clearSegmentMembership sid st).segmentToFiles s =
      alookup st.segmentToFiles s := by
  unfold clearSegmentMembership
  cases hl : alookup st.segmentToFiles sid with
  | none => rfl
  | some segs =>
    simp only
    rw [alookup_aerase, if_neg (fun hc => hs hc.symm)]

theorem IndexInv_clear (sid : String) (st : EngineState) (h : IndexInv st) :
    IndexInv (clearSegmentMembership sid st) := by
  cases hl : alookup st.segmentToFiles sid with
  | none =>
    rw [show clearSegmentMembership sid st = st from by
      unfold clearSegmentMembership; rw [hl]]
    exact h
  | some segmentFiles =>
    rw [show clearSegmentMembership sid st =
        { st with
          fileToSegments := segmentFiles.foldl (clearStep sid) st.fileToSegments,
          segmentToFiles := aerase st.segmentToFiles sid } from by
      unfold clearSegmentMembership; rw [hl]]
    intro f s
    unfold lookupSet
    rw [alookup_aerase, clearFold_lookup]
    by_cases hs : sid = s
    · subst hs
      rw [if_pos rfl]
      simp only [Option.getD_none, List.not_mem_nil, false_iff]
      by_cases hfm : f ∈ segmentFiles
      · rw [if_pos hfm]
        exact not_mem_remSeg sid (alookup st.fileToSegments f)
      · rw [if_neg hfm]
        intro hc
        have := (h f sid).mpr hc
        unfold lookupSet at this
        rw [hl] at this
        exact hfm this
    · rw [if_neg hs]
      by_cases hfm : f ∈ segmentFiles
      · rw [if_pos hfm]
        rw [mem_remSeg sid s (fun hc => hs hc.symm)]
        exact h f s
      · rw [if_neg hfm]
        exact h f s

theorem IndexInv_commit (sid : String) (visited : List String) (st : EngineState)
    (h : IndexInv st) : IndexInv (commitMembership sid visited st) := by
  have hclear : IndexInv (clearSegmentMembership sid st) := IndexInv_clear sid st h
  have hnos : ∀ f, sid ∉ lookupSet (clearSegmentMembership sid st).fileToSegments f := by
    intro f hc
    have := (hclear f sid).mpr hc
    unfold lookupSet at this
    rw [clearSegmentMembership_stf_self] at this
    exact List.not_mem_nil f this
  intro f s
  unfold commitMembership lookupSet
  simp only
  rw [alookup_aset, addFold_lookup]
  by_cases hs : sid = s
  · subst hs
    rw [if_pos rfl]
    simp only [Option.getD_some]
    by_cases hfm : f ∈ visited
    · rw [if_pos hfm]
      unfold addSeg
      simp only [Option.getD_some]
      constructor
      · intro _; exact (mem_sadd _ _ _).mpr (Or.inr rfl)
      · intro _; exact hfm
    · rw [if_neg hfm]
      constructor
      · intro hc; exact absurd hc hfm
      · intro hc; exact absurd hc (hnos f)
  · rw [if_neg hs]
    by_cases hfm : f ∈ visited
    · rw [if_pos hfm]
      unfold addSeg
      simp only [Option.getD_some]
      rw [mem_sadd]
      have hbase := hclear f s
      unfold lookupSet at hbase
      constructor
      · intro hc
        exact Or.inl (hbase.mp hc)
      · rintro (hc | hc)
        · exact hbase.mpr hc
        · exact absurd hc.symm hs
    · rw [if_neg hfm]
      have hbase := hclear f s
      unfold lookupSet at hbase
      exact hbase

theorem clearSegmentMembership_cachedFiles (sid : String) (st : EngineState) :
    (clearSegmentMembership sid st).cachedFiles = st.cachedFiles := by
  unfold clearSegmentMembership
  cases alookup st.segmentToFiles sid <;> rfl

theorem clearSegmentMembership_segmentDefinitions (sid : String) (st : EngineState) :
    (clearSegmentMembership sid st).segmentDefinitions = st.segmentDefinitions := by
  unfold clearSegmentMembership
  cases alookup st.segmentToFiles sid <;> rfl

theorem commitMembership_cachedFiles (sid : String) (visited : List String)
    (st : EngineState) :
    (commitMembership sid visited st).cachedFiles = st.cachedFiles := by
  unfold commitMembership
  exact clearSegmentMembership_cachedFiles sid st

theorem commitMembership_segmentDefinitions (sid : String) (visited : List String)
    (st : EngineState) :
    (commitMembership sid visited st).segmentDefinitions = st.segmentDefinitions := by
  unfold commitMembership
  exact clearSegmentMembership_segmentDefinitions sid st

theorem effRecord_cachedFiles_congr (root : String) (d : Disk)
    (st₁ st₂ : EngineState) (h : st₁.cachedFiles = st₂.cachedFiles) (q : String) :
    effRecord root d st₁ q = effRecord root d st₂ q := by
  unfold effRecord
  rw [h]

/-! ## Manifest-writer fold lemmas -/

theorem manifestFold_keys (root : String) (d : Disk) (segmentFiles : List String)
    (segmentDependencies : List (String × List String)) :
    ∀ (files : List String)
      (acc : List (String × SegmentManifestFile) × EngineState) (r : String),
      r ∈ (files.foldl (manifestStep root d segmentFiles segmentDependencies)
        acc).1.map Prod.fst ↔
        r ∈ acc.1.map Prod.fst ∨
          ∃ f ∈ files, r = toPosixPath (pRelative root root f) := by
  intro files
  induction files with
  | nil => intro acc r; simp
  | cons f rest ih =>
    intro acc r
    rw [List.foldl_cons, ih]
    rw [show (manifestStep root d segmentFiles segmentDependencies acc f).1 =
        aset acc.1 (toPosixPath (pRelative root root f))
          { imports := sortStrings
              ((((alookup segmentDependencies f).getD []).filter
                (fun importPath => segmentFiles.contains importPath)).map
                (fun importPath => toPosixPath (pRelative root root importPath))),
            lines := (getCachedFile root d acc.2 f).1.lines } from rfl]
    rw [mem_keys_aset]
    constructor
    · rintro ((h | h) | ⟨g, hg, rfl⟩)
      · exact Or.inl h
      · exact Or.inr ⟨f, List.mem_cons_self f rest, h⟩
      · exact Or.inr ⟨g, List.mem_cons_of_mem f hg, rfl⟩
    · rintro (h | ⟨g, hg, rfl⟩)
      · exact Or.inl (Or.inl h)
      · rcases List.mem_cons.mp hg with rfl | hg'
        · exact Or.inl (Or.inr rfl)
        · exact Or.inr ⟨g, hg', rfl⟩

theorem manifestFold_imports (root : String) (d : Disk) (segmentFiles : List String)
    (segmentDependencies : List (String × List String)) :
    ∀ (files : List String)
      (acc : List (String × SegmentManifestFile) × EngineState),
      (∀ e ∈ acc.1, ∀ imp ∈ e.2.imports,
        ∃ q ∈ segmentFiles, imp = toPosixPath (pRelative root root q)) →
      ∀ e ∈ (files.foldl (manifestStep root d segmentFiles segmentDependencies)
        acc).1, ∀ imp ∈ e.2.imports,
        ∃ q ∈ segmentFiles, imp = toPosixPath (pRelative root root q) := by
  intro files
  induction files with
  | nil => intro acc hacc; exact hacc
  | cons f rest ih =>
    intro acc hacc
    rw [List.foldl_cons]
    refine ih _ ?_
    intro e he imp himp
    rcases mem_aset _ _ _ _ he with h1 | h1
    · exact hacc e h1 imp himp
    · subst h1
      simp only at himp
      rw [mem_sortStrings] at himp
      rcases List.mem_map.mp himp with ⟨q, hq, rfl⟩
      exact ⟨q, (contains_iff _ _).mp (List.mem_filter.mp hq).2, rfl⟩

theorem manifestFold_eff (root : String) (d : Disk) (segmentFiles : List String)
    (segmentDependencies : List (String × List String)) :
    ∀ (files : List String)
      (acc : List (String × SegmentManifestFile) × EngineState) (q : String),
      effRecord root d (files.foldl
        (manifestStep root d segmentFiles segmentDependencies) acc).2 q =
        effRecord root d acc.2 q := by
  intro files
  induction files with
  | nil => intro acc q; rfl
  | cons f rest ih =>
    intro acc q
    rw [List.foldl_cons, ih]
    exact effRecord_getCachedFile root d acc.2 f q

theorem manifestFold_index (root : String) (d : Disk) (segmentFiles : List String)
    (segmentDependencies : List (String × List String)) :
    ∀ (files : List String)
      (acc : List (String × SegmentManifestFile) × EngineState),
      (files.foldl (manifestStep root d segmentFiles segmentDependencies)
        acc).2.fileToSegments = acc.2.fileToSegments ∧
      (files.foldl (manifestStep root d segmentFiles segmentDependencies)
        acc).2.segmentToFiles = acc.2.segmentToFiles ∧
      (files.foldl (manifestStep root d segmentFiles segmentDependencies)
        acc).2.segmentDefinitions = acc.2.segmentDefinitions := by
  intro files
  induction files with
  | nil => intro acc; exact ⟨rfl, rfl, rfl⟩
  | cons f rest ih =>
    intro acc
    rw [List.foldl_cons]
    have h1 := ih (manifestStep root d segmentFiles segmentDependencies acc f)
    have h2 := getCachedFile_index root d acc.2 f
    exact ⟨h1.1.trans h2.1, h1.2.1.trans h2.2.1, h1.2.2.trans h2.2.2⟩

theorem manifestFold_cache_missing (root : String) (d : Disk)
    (segmentFiles : List String)
    (segmentDependencies : List (String × List String)) (q : String)
    (hq : d.existsF q = false) :
    ∀ (files : List String)
      (acc : List (String × SegmentManifestFile) × EngineState),
      (∀ f ∈ files, d.existsF (normalizeFilePath root f) = true) →
      alookup acc.2.cachedFiles q = none →
      alookup (files.foldl (manifestStep root d segmentFiles segmentDependencies)
        acc).2.cachedFiles q = none := by
  intro files
  induction files with
  | nil => intro acc _ h; exact h
  | cons f rest ih =>
    intro acc hfiles h
    rw [List.foldl_cons]
    refine ih _ (fun g hg => hfiles g (List.mem_cons_of_mem f hg)) ?_
    rw [show (manifestStep root d segmentFiles segmentDependencies acc f).2 =
      (getCachedFile root d acc.2 f).2 from rfl]
    rw [getCachedFile_cache_other root d acc.2 f q ?_]
    · exact h
    · intro hc
      have := hfiles f (List.mem_cons_self f rest)
      rw [hc] at this
      rw [this] at hq
      cases hq

theorem manifestFold_files_congr (root : String) (d : Disk)
    (segmentFiles : List String)
    (segmentDependencies : List (String × List String)) :
    ∀ (files : List String)
      (acc₁ acc₂ : List (String × SegmentManifestFile) × EngineState),
      acc₁.1 = acc₂.1 →
      (∀ x, effRecord root d acc₁.2 x = effRecord root d acc₂.2 x) →
      (files.foldl (manifestStep root d segmentFiles segmentDependencies)
        acc₁).1 =
      (files.foldl (manifestStep root d segmentFiles segmentDependencies)
        acc₂).1 := by
  intro files
  induction files with
  | nil => intro acc₁ acc₂ h _; exact h
  | cons f rest ih =>
    intro acc₁ acc₂ h heff
    rw [List.foldl_cons, List.foldl_cons]
    refine ih _ _ ?_ ?_
    · show aset acc₁.1 _ _ = aset acc₂.1 _ _
      rw [h, getCachedFile_fst, getCachedFile_fst, heff]
    · intro x
      show effRecord root d (getCachedFile root d acc₁.2 f).2 x =
        effRecord root d (getCachedFile root d acc₂.2 f).2 x
      rw [effRecord_getCachedFile, effRecord_getCachedFile]
      exact heff x

/-- The traversal result depends only on the effective records, not on the
incidental cache state. -/
theorem buildLoop_congr (root : String) (d : Disk) :
    ∀ (fuel : Nat) (st₁ st₂ : EngineState) (stack visited : List String)
      (deps : List (String × List String)),
      (∀ x, effRecord root d st₁ x = effRecord root d st₂ x) →
      (buildLoop root d fuel st₁ stack visited deps).2 =
        (buildLoop root d fuel st₂ stack visited deps).2 := by
  intro fuel
  induction fuel with
  | zero => intro st₁ st₂ stack visited deps h; rfl
  | succ n ih =>
    intro st₁ st₂ stack visited deps h
    cases stack with
    | nil => rfl
    | cons s rest =>
      by_cases hv : visited.contains (normalizeFilePath root s) = true
      · rw [buildLoop_succ_visited root d n st₁ s rest visited deps hv,
          buildLoop_succ_visited root d n st₂ s rest visited deps hv]
        exact ih st₁ st₂ rest visited deps h
      · by_cases he : d.existsF (normalizeFilePath root s) = true
        · rw [buildLoop_succ_visit root d n st₁ s rest visited deps hv he,
            buildLoop_succ_visit root d n st₂ s rest visited deps hv he]
          have hfd : (getCachedFile root d st₁ (normalizeFilePath root s)).1 =
              (getCachedFile root d st₂ (normalizeFilePath root s)).1 := by
            rw [getCachedFile_fst, getCachedFile_fst]
            exact h _
          rw [hfd]
          refine ih _ _ _ _ _ ?_
          intro x
          rw [effRecord_getCachedFile, effRecord_getCachedFile]
          exact h x
        · rw [buildLoop_succ_missing root d n st₁ s rest visited deps hv he,
            buildLoop_succ_missing root d n st₂ s rest visited deps hv he]
          exact ih st₁ st₂ rest visited deps h

/-- Every file the loop records as visited is a normalized path of an
existing file. -/
theorem buildLoop_visited_prop (root : String) (d : Disk) :
    ∀ (fuel : Nat) (st : EngineState) (stack visited : List String)
      (deps : List (String × List String)),
      (∀ v ∈ visited, normalizeFilePath root v = v ∧ d.existsF v = true) →
      ∀ v ∈ (buildLoop root d fuel st stack visited deps).2.1,
        normalizeFilePath root v = v ∧ d.existsF v = true := by
  intro fuel
  induction fuel with
  | zero => intro st stack visited deps h; exact h
  | succ n ih =>
    intro st stack visited deps h
    cases stack with
    | nil => exact h
    | cons s rest =>
      by_cases hv : visited.contains (normalizeFilePath root s) = true
      · rw [buildLoop_succ_visited root d n st s rest visited deps hv]
        exact ih st rest visited deps h
      · by_cases he : d.existsF (normalizeFilePath root s) = true
        · rw [buildLoop_succ_visit root d n st s rest visited deps hv he]
          refine ih _ _ _ _ ?_
          intro v hvm
          rcases List.mem_append.mp hvm with h1 | h1
          · exact h v h1
          · rw [List.mem_singleton.mp h1]
            exact ⟨normalizeFilePath_idem root s, he⟩
        · rw [buildLoop_succ_missing root d n st s rest visited deps hv he]
          exact ih st rest visited deps h

/-- Visited files are never forgotten. -/
theorem buildLoop_mono (root : String) (d : Disk) :
    ∀ (fuel : Nat) (st : EngineState) (stack visited : List String)
      (deps : List (String × List String)) (v : String), v ∈ visited →
      v ∈ (buildLoop root d fuel st stack visited deps).2.1 := by
  intro fuel
  induction fuel with
  | zero => intro st stack visited deps v h; exact h
  | succ n ih =>
    intro st stack visited deps v h
    cases stack with
    | nil => exact h
    | cons s rest =>
      by_cases hv : visited.contains (normalizeFilePath root s) = true
      · rw [buildLoop_succ_visited root d n st s rest visited deps hv]
        exact ih st rest visited deps v h
      · by_cases he : d.existsF (normalizeFilePath root s) = true
        · rw [buildLoop_succ_visit root d n st s rest visited deps hv he]
          exact ih _ _ _ _ v (List.mem_append_left _ h)
        · rw [buildLoop_succ_missing root d n st s rest visited deps hv he]
          exact ih st rest visited deps v h

/-- With sufficient fuel, every existing stack element ends up visited —
independent of any cache-consistency assumption. -/
theorem buildLoop_stack_visited (root : String) (d : Disk) :
    ∀ (fuel : Nat) (st : EngineState) (stack visited : List String)
      (deps : List (String × List String)),
      stack.length + ((d.files.map Prod.fst).toFinset \ visited.toFinset).sum
        (fun x => (effRecord root d st x).imports.length) < fuel →
      ∀ s ∈ stack, d.existsF (normalizeFilePath root s) = true →
        normalizeFilePath root s ∈ (buildLoop root d fuel st stack visited deps).2.1 := by
  intro fuel
  induction fuel with
  | zero =>
    intro st stack visited deps hfuel
    exact absurd hfuel (Nat.not_lt_zero _)
  | succ n ih =>
    intro st stack visited deps hfuel s hs hex
    cases stack with
    | nil => cases hs
    | cons s' rest =>
      have hfuel_tail : rest.length +
          ((d.files.map Prod.fst).toFinset \ visited.toFinset).sum
            (fun x => (effRecord root d st x).imports.length) < n := by
        rw [List.length_cons] at hfuel
        omega
      by_cases hv : visited.contains (normalizeFilePath root s') = true
      · rw [buildLoop_succ_visited root d n st s' rest visited deps hv]
        rcases List.mem_cons.mp hs with rfl | hs'
        · exact buildLoop_mono root d n st rest visited deps _
            ((contains_iff _ _).mp hv)
        · exact ih st rest visited deps hfuel_tail s hs' hex
      · by_cases he : d.existsF (normalizeFilePath root s') = true
        · rw [buildLoop_succ_visit root d n st s' rest visited deps hv he]
          have hPnv : normalizeFilePath root s' ∉ visited :=
            fun hm => hv ((contains_iff _ _).mpr hm)
          have hPmem : normalizeFilePath root s' ∈
              (d.files.map Prod.fst).toFinset \ visited.toFinset := by
            rw [Finset.mem_sdiff, List.mem_toFinset, List.mem_toFinset]
            exact ⟨(contains_iff _ _).mp he, hPnv⟩
          have hsetEq : (d.files.map Prod.fst).toFinset \
              (visited ++ [normalizeFilePath root s']).toFinset =
              ((d.files.map Prod.fst).toFinset \ visited.toFinset).erase
                (normalizeFilePath root s') := by
            ext x
            simp only [Finset.mem_sdiff, List.mem_toFinset, List.toFinset_append,
              Finset.mem_union, Finset.mem_erase, List.mem_append,
              List.mem_singleton, List.toFinset_cons, List.toFinset_nil,
              insert_emptyc_eq, Finset.mem_insert, Finset.mem_singleton]
            tauto
          have hsum : (((d.files.map Prod.fst).toFinset \ visited.toFinset).erase
              (normalizeFilePath root s')).sum
                (fun x => (effRecord root d st x).imports.length) +
              (effRecord root d st (normalizeFilePath root s')).imports.length =
              ((d.files.map Prod.fst).toFinset \ visited.toFinset).sum
                (fun x => (effRecord root d st x).imports.length) := by
            simpa using Finset.sum_erase_add
              ((d.files.map Prod.fst).toFinset \ visited.toFinset)
              (fun x => (effRecord root d st x).imports.length) hPmem
          have hsum_congr : ∀ (t : Finset String),
              t.sum (fun x => (effRecord root d
                (getCachedFile root d st (normalizeFilePath root s')).2 x).imports.length) =
              t.sum (fun x => (effRecord root d st x).imports.length) := by
            intro t
            refine Finset.sum_congr rfl ?_
            intro x _
            rw [effRecord_getCachedFile]
          have hfd_len : (getCachedFile root d st (normalizeFilePath root s')).1.imports =
              (effRecord root d st (normalizeFilePath root s')).imports := by
            rw [getCachedFile_fst, normalizeFilePath_idem]
          have hfuel' : ((getCachedFile root d st (normalizeFilePath root s')).1.imports.filter
              (fun importPath =>
                !(visited ++ [normalizeFilePath root s']).contains importPath) ++
                rest).length +
              ((d.files.map Prod.fst).toFinset \
                (visited ++ [normalizeFilePath root s']).toFinset).sum
                (fun x => (effRecord root d
                  (getCachedFile root d st (normalizeFilePath root s')).2 x).imports.length) < n := by
            rw [List.length_append, hsetEq, hsum_congr, hfd_len]
            have hflen := List.length_filter_le
              (fun importPath =>
                !(visited ++ [normalizeFilePath root s']).contains importPath)
              (effRecord root d st (normalizeFilePath root s')).imports
            rw [List.length_cons] at hfuel
            omega
          rcases List.mem_cons.mp hs with rfl | hs'
          · exact buildLoop_mono root d n _ _ _ _ _
              (List.mem_append_right _ (List.mem_singleton.mpr rfl))
          · exact ih _ _ _ _ hfuel' s (List.mem_append_right _ hs') hex
        · rw [buildLoop_succ_missing root d n st s' rest visited deps hv he]
          rcases List.mem_cons.mp hs with rfl | hs'
          · rw [hex] at he
            exact absurd rfl he
          · exact ih st rest visited deps hfuel_tail s hs' hex

theorem ReachableFile_iff_ReachVia (root : String) (d : Disk)
    (entries : List String) (p : String) :
    ReachableFile root d entries p ↔
      ReachVia root (fun x => (canonRecord root d x).imports) d.existsF []
        entries p := by
  constructor
  · intro h
    induction h with
    | entry hp hex => exact ReachVia.base hp hex (List.not_mem_nil _)
    | step hr hq hw hex ih =>
      have hex_p := (ReachVia_node ih).2.1
      refine ReachVia.step ih ?_ hex (List.not_mem_nil _)
      unfold canonRecord
      rw [if_pos hex_p]
      exact hq
  · intro h
    induction h with
    | base hp hex => exact ReachableFile.entry hp hex
    | step hr hq hex hnv ih =>
      have hex_p := (ReachVia_node hr).2.1
      unfold canonRecord at hq
      rw [if_pos hex_p] at hq
      exact ReachableFile.step ih hq
        (computeFileRecord_imports root d _ _ hq).2 hex

/-! ## The manifest written by a build -/

theorem buildSegment_manifest (root : String) (d : Disk) (now : Nat)
    (w : World) (sd : SegmentDefinition) :
    ∃ m : SegmentManifest,
      alookup (buildSegment root d now w sd).cacheFS
        (getManifestPath root sd.id) = some (DiskJson.manifest m) ∧
      m.entries = sd.entries.map (fun e => toPosixPath (pRelative root root e)) ∧
      m.segment = sd.id ∧ m.updatedAt = now ∧
      (∀ r, r ∈ m.files.map Prod.fst ↔
        ∃ f ∈ (buildLoop root d (segmentFuel root d w.engine sd.entries)
          w.engine sd.entries [] []).2.1,
          r = toPosixPath (pRelative root root f)) ∧
      (∀ e ∈ m.files, ∀ imp ∈ e.2.imports,
        ∃ q ∈ (buildLoop root d (segmentFuel root d w.engine sd.entries)
          w.engine sd.entries [] []).2.1,
          imp = toPosixPath (pRelative root root q)) := by
  unfold buildSegment writeManifest
  refine ⟨{ entries := sd.entries.map
              (fun entryPath => toPosixPath (pRelative root root entryPath)),
            files := ((sortStrings (buildLoop root d
                (segmentFuel root d w.engine sd.entries)
                w.engine sd.entries [] []).2.1).foldl
              (manifestStep root d
                (buildLoop root d (segmentFuel root d w.engine sd.entries)
                  w.engine sd.entries [] []).2.1
                (buildLoop root d (segmentFuel root d w.engine sd.entries)
                  w.engine sd.entries [] []).2.2)
              ([], commitMembership sd.id
                (buildLoop root d (segmentFuel root d w.engine sd.entries)
                  w.engine sd.entries [] []).2.1
                (buildLoop root d (segmentFuel root d w.engine sd.entries)
                  w.engine sd.entries [] []).1)).1,
            segment := sd.id, updatedAt := now }, ?_, rfl, rfl, rfl, ?_, ?_⟩
  · simp [alookup_aset]
  · intro r
    rw [manifestFold_keys]
    simp only [List.map_nil, List.not_mem_nil, false_or]
    constructor
    · rintro ⟨f, hf, rfl⟩
      exact ⟨f, (mem_sortStrings _ _).mp hf, rfl⟩
    · rintro ⟨f, hf, rfl⟩
      exact ⟨f, (mem_sortStrings _ _).mpr hf, rfl⟩
  · intro e he imp himp
    have := manifestFold_imports root d _ _ _ ([], _)
      (by intro e' he' imp' him'; cases he') e he imp himp
    rcases this with ⟨q, hq, rfl⟩
    exact ⟨q, hq, rfl⟩

/-- A build changes no effective file record. -/
theorem buildSegment_eff (root : String) (d : Disk) (now : Nat) (w : World)
    (sd : SegmentDefinition) (q : String) :
    effRecord root d (buildSegment root d now w sd).engine q =
      effRecord root d w.engine q := by
  unfold buildSegment writeManifest
  rw [manifestFold_eff]
  refine (effRecord_cachedFiles_congr root d _ _
    (commitMembership_cachedFiles _ _ _) q).trans ?_
  exact buildLoop_eff root d _ _ _ _ _ q

/-- A build leaves the segment definitions map alone. -/
theorem buildSegment_segmentDefinitions (root : String) (d : Disk) (now : Nat)
    (w : World) (sd : SegmentDefinition) :
    (buildSegment root d now w sd).engine.segmentDefinitions =
      w.engine.segmentDefinitions := by
  unfold buildSegment writeManifest
  rw [(manifestFold_index root d _ _ _ _).2.2]
  exact (commitMembership_segmentDefinitions sd.id
    (buildLoop root d (segmentFuel root d w.engine sd.entries)
      w.engine sd.entries [] []).2.1
    (buildLoop root d (segmentFuel root d w.engine sd.entries)
      w.engine sd.entries [] []).1).trans
    (buildLoop_index root d (segmentFuel root d w.engine sd.entries)
      w.engine sd.entries [] []).2.2

/-- A build never creates a cache record for a file missing on disk. -/
theorem buildSegment_cache_missing (root : String) (d : Disk) (now : Nat)
    (w : World) (sd : SegmentDefinition) (q : String)
    (hq : d.existsF q = false)
    (h : alookup w.engine.cachedFiles q = none) :
    alookup (buildSegment root d now w sd).engine.cachedFiles q = none := by
  unfold buildSegment writeManifest
  refine manifestFold_cache_missing root d _ _ q hq _ _ ?_ ?_
  · intro f hf
    have hprop := buildLoop_visited_prop root d
      (segmentFuel root d w.engine sd.entries) w.engine sd.entries [] []
      (by intro v hv; cases hv) f ((mem_sortStrings _ _).mp hf)
    rw [hprop.1]
    exact hprop.2
  · show alookup (commitMembership sd.id _ _).cachedFiles q = none
    rw [commitMembership_cachedFiles]
    exact buildLoop_cache_missing root d q hq _ _ _ _ _ h

/-- Builds of the same definition from worlds with equal effective records
produce manifests with identical `entries`, `files` and `segment`; only the
timestamps differ. -/
theorem buildSegment_manifest_content (root : String) (d : Disk)
    (t₁ t₂ : Nat) (w₁ w₂ : World) (sd : SegmentDefinition)
    (heff : ∀ x, effRecord root d w₁.engine x = effRecord root d w₂.engine x) :
    ∃ m₁ m₂ : SegmentManifest,
      alookup (buildSegment root d t₁ w₁ sd).cacheFS (getManifestPath root sd.id) =
        some (DiskJson.manifest m₁) ∧
      alookup (buildSegment root d t₂ w₂ sd).cacheFS (getManifestPath root sd.id) =
        some (DiskJson.manifest m₂) ∧
      m₁.entries = m₂.entries ∧ m₁.files = m₂.files ∧ m₁.segment = m₂.segment ∧
      m₁.updatedAt = t₁ ∧ m₂.updatedAt = t₂ := by
  have hfuel : segmentFuel root d w₁.engine sd.entries =
      segmentFuel root d w₂.engine sd.entries := by
    unfold segmentFuel
    have : (d.files.map Prod.fst).toFinset.sum
        (fun p => (effRecord root d w₁.engine p).imports.length) =
        (d.files.map Prod.fst).toFinset.sum
          (fun p => (effRecord root d w₂.engine p).imports.length) := by
      refine Finset.sum_congr rfl ?_
      intro x _
      rw [heff x]
    rw [this]
  have hloop : (buildLoop root d (segmentFuel root d w₁.engine sd.entries)
      w₁.engine sd.entries [] []).2 =
      (buildLoop root d (segmentFuel root d w₂.engine sd.entries)
        w₂.engine sd.entries [] []).2 := by
    rw [hfuel]
    exact buildLoop_congr root d _ w₁.engine w₂.engine sd.entries [] [] heff
  have hv : (buildLoop root d (segmentFuel root d w₁.engine sd.entries)
      w₁.engine sd.entries [] []).2.1 =
      (buildLoop root d (segmentFuel root d w₂.engine sd.entries)
        w₂.engine sd.entries [] []).2.1 := congrArg Prod.fst hloop
  have hd : (buildLoop root d (segmentFuel root d w₁.engine sd.entries)
      w₁.engine sd.entries [] []).2.2 =
      (buildLoop root d (segmentFuel root d w₂.engine sd.entries)
        w₂.engine sd.entries [] []).2.2 := congrArg Prod.snd hloop
  have hF : ((sortStrings (buildLoop root d (segmentFuel root d w₁.engine sd.entries)
        w₁.engine sd.entries [] []).2.1).foldl
      (manifestStep root d
        (buildLoop root d (segmentFuel root d w₁.engine sd.entries)
          w₁.engine sd.entries [] []).2.1
        (buildLoop root d (segmentFuel root d w₁.engine sd.entries)
          w₁.engine sd.entries [] []).2.2)
      ([], commitMembership sd.id
        (buildLoop root d (segmentFuel root d w₁.engine sd.entries)
          w₁.engine sd.entries [] []).2.1
        (buildLoop root d (segmentFuel root d w₁.engine sd.entries)
          w₁.engine sd.entries [] []).1)).1 =
      ((sortStrings (buildLoop root d (segmentFuel root d w₂.engine sd.entries)
        w₂.engine sd.entries [] []).2.1).foldl
      (manifestStep root d
        (buildLoop root d (segmentFuel root d w₂.engine sd.entries)
          w₂.engine sd.entries [] []).2.1
        (buildLoop root d (segmentFuel root d w₂.engine sd.entries)
          w₂.engine sd.entries [] []).2.2)
      ([], commitMembership sd.id
        (buildLoop root d (segmentFuel root d w₂.engine sd.entries)
          w₂.engine sd.entries [] []).2.1
        (buildLoop root d (segmentFuel root d w₂.engine sd.entries)
          w₂.engine sd.entries [] []).1)).1 := by
    rw [← hv, ← hd]
    refine manifestFold_files_congr root d _ _ _ _ _ rfl ?_
    intro x
    show effRecord root d (commitMembership sd.id
        (buildLoop root d (segmentFuel root d w₁.engine sd.entries)
          w₁.engine sd.entries [] []).2.1
        (buildLoop root d (segmentFuel root d w₁.engine sd.entries)
          w₁.engine sd.entries [] []).1) x =
      effRecord root d (commitMembership sd.id
        (buildLoop root d (segmentFuel root d w₁.engine sd.entries)
          w₁.engine sd.entries [] []).2.1
        (buildLoop root d (segmentFuel root d w₂.engine sd.entries)
          w₂.engine sd.entries [] []).1) x
    refine ((effRecord_cachedFiles_congr root d _ _
      (commitMembership_cachedFiles _ _ _) x).trans
      ((buildLoop_eff root d _ _ _ _ _ x).trans (heff x))).trans ?_
    refine ((effRecord_cachedFiles_congr root d _ _
      (commitMembership_cachedFiles _ _ _) x).trans
      (buildLoop_eff root d _ _ _ _ _ x)).symm
  refine ⟨{ entries := sd.entries.map
              (fun entryPath => toPosixPath (pRelative root root entryPath)),
            files := _, segment := sd.id, updatedAt := t₁ },
          { entries := sd.entries.map
              (fun entryPath => toPosixPath (pRelative root root entryPath)),
            files := _, segment := sd.id, updatedAt := t₂ },
          ?_, ?_, rfl, hF, rfl, rfl, rfl⟩
  · unfold buildSegment writeManifest
    simp [alookup_aset]
  · unfold buildSegment writeManifest
    simp [alookup_aset]

theorem removeSegment_cachedFiles (root sid : String) (w : World) :
    (removeSegment root sid w).engine.cachedFiles = w.engine.cachedFiles := by
  unfold removeSegment
  exact clearSegmentMembership_cachedFiles sid w.engine

theorem ensureSegmentDefinition_cachedFiles (root : String) (d : Disk)
    (sid : String) (w : World) :
    (ensureSegmentDefinition root d sid w).2.engine.cachedFiles =
      w.engine.cachedFiles := by
  unfold ensureSegmentDefinition
  by_cases h : (getSegmentEntries root d sid).any
      (fun entryPath => pBasename entryPath = "layout.tsx")
  · rw [if_neg (by simp [h])]
  · rw [if_pos (by simp [h])]
    exact removeSegment_cachedFiles root sid w

/-- `buildSegmentForId` never creates a cache record for a missing file. -/
theorem buildSegmentForId_cache_missing (root : String) (d : Disk) (now : Nat)
    (sid : String) (w : World) (q : String) (hq : d.existsF q = false)
    (h : alookup w.engine.cachedFiles q = none) :
    alookup (buildSegmentForId root d now sid w).engine.cachedFiles q = none := by
  unfold buildSegmentForId
  rcases he : ensureSegmentDefinition root d sid w with ⟨osd, w'⟩
  have hw' : w'.engine.cachedFiles = w.engine.cachedFiles := by
    have := ensureSegmentDefinition_cachedFiles root d sid w
    rw [he] at this
    exact this
  cases osd with
  | none =>
    simp only
    rw [hw']
    exact h
  | some sd =>
    simp only
    exact buildSegment_cache_missing root d now w' sd q hq (hw' ▸ h)

theorem foldl_buildSegmentForId_cache_missing (root : String) (d : Disk)
    (now : Nat) (q : String) (hq : d.existsF q = false) :
    ∀ (ids : List String) (w : World),
      alookup w.engine.cachedFiles q = none →
      alookup ((ids.foldl (fun w' sid => buildSegmentForId root d now sid w')
        w).engine.cachedFiles) q = none := by
  intro ids
  induction ids with
  | nil => intro w h; exact h
  | cons sid rest ih =>
    intro w h
    rw [List.foldl_cons]
    exact ih _ (buildSegmentForId_cache_missing root d now sid w q hq h)

/-! ## Event-fold characterization -/

theorem eventFold_fst (root : String) :
    ∀ (events : List WatchEvent) (acc : Bool × List String × EngineState),
      (events.foldl (eventStep root) acc).1 =
        (acc.1 || events.any (fun e => e.type = "create" || e.type = "delete")) := by
  intro events
  induction events with
  | nil => intro acc; simp
  | cons e rest ih =>
    intro acc
    rw [List.foldl_cons, ih, List.any_cons]
    rw [show (eventStep root acc e).1 =
        (acc.1 || decide (e.type = "create") || decide (e.type = "delete")) from rfl]
    simp [Bool.or_assoc]

theorem eventFold_changed (root : String) :
    ∀ (events : List WatchEvent) (acc : Bool × List String × EngineState),
      (events.foldl (eventStep root) acc).2.1 =
        events.foldl (fun changed e => sadd changed (normalizeFilePath root e.path))
          acc.2.1 := by
  intro events
  induction events with
  | nil => intro acc; rfl
  | cons e rest ih =>
    intro acc
    rw [List.foldl_cons, ih, List.foldl_cons]
    rw [show (eventStep root acc e).2.1 =
        sadd acc.2.1 (normalizeFilePath root e.path) from rfl]

theorem eventFold_engine (root : String) :
    ∀ (events : List WatchEvent) (acc : Bool × List String × EngineState),
      (events.foldl (eventStep root) acc).2.2 =
        { acc.2.2 with
          cachedFiles := events.foldl
            (fun cf e => aerase cf (normalizeFilePath root e.path))
            acc.2.2.cachedFiles } := by
  intro events
  induction events with
  | nil => intro acc; rfl
  | cons e rest ih =>
    intro acc
    rw [List.foldl_cons, ih, List.foldl_cons]
    rw [show (eventStep root acc e).2.2 =
        { acc.2.2 with
          cachedFiles :=
              aerase acc.2.2.cachedFiles (normalizeFilePath root e.path) } from rfl]

theorem erase_fold_none (root : String) :
    ∀ (events : List WatchEvent) (cf : List (String × CachedFile)) (q : String),
      alookup cf q = none →
      alookup (events.foldl
        (fun cf e => aerase cf (normalizeFilePath root e.path)) cf) q = none := by
  intro events
  induction events with
  | nil => intro cf q h; exact h
  | cons e rest ih =>
    intro cf q h
    rw [List.foldl_cons]
    refine ih _ q ?_
    rw [alookup_aerase]
    by_cases hc : normalizeFilePath root e.path = q
    · rw [if_pos hc]
    · rw [if_neg hc]; exact h

theorem mem_specChangedFiles (root : String) (events : List WatchEvent)
    (x : String) (hx : x ∈ specChangedFiles root events) :
    ∃ e ∈ events, x = normalizeFilePath root e.path := by
  unfold specChangedFiles at hx
  suffices h : ∀ (acc : List String),
      x ∈ events.foldl (fun changed e => sadd changed (normalizeFilePath root e.path)) acc →
      x ∈ acc ∨ ∃ e ∈ events, x = normalizeFilePath root e.path by
    rcases h [] hx with h1 | h1
    · cases h1
    · exact h1
  clear hx
  induction events with
  | nil => intro acc h; exact Or.inl h
  | cons e rest ih =>
    intro acc h
    rw [List.foldl_cons] at h
    rcases ih _ h with h1 | ⟨e', he', rfl⟩
    · rcases (mem_sadd _ _ _).mp h1 with h2 | rfl
      · exact Or.inl h2
      · exact Or.inr ⟨e, List.mem_cons_self e rest, rfl⟩
    · exact Or.inr ⟨e', List.mem_cons_of_mem e he', rfl⟩

theorem impactedStep_no_entry (root : String)
    (index : List (String × List String))
    (defs : List (String × SegmentDefinition)) (acc : List String) (f : String)
    (hf : isEntryFile root f = false) :
    impactedStep root index defs acc f = unionStep index acc f := by
  unfold impactedStep
  rw [hf]
  rfl

theorem impactedFold_no_entry (root : String)
    (index : List (String × List String))
    (defs : List (String × SegmentDefinition)) :
    ∀ (changed acc : List String),
      (∀ f ∈ changed, isEntryFile root f = false) →
      changed.foldl (impactedStep root index defs) acc =
        changed.foldl (unionStep index) acc := by
  intro changed
  induction changed with
  | nil =>
    intro acc _
    rw [List.foldl_nil, List.foldl_nil]
  | cons f rest ih =>
    intro acc h
    rw [List.foldl_cons, List.foldl_cons,
      impactedStep_no_entry root index defs acc f (h f (List.mem_cons_self f rest))]
    exact ih _ (fun g hg => h g (List.mem_cons_of_mem f hg))

theorem erase_fold_erased (root : String) :
    ∀ (events : List WatchEvent) (cf : List (String × CachedFile)) (q : String),
      (∃ e ∈ events, normalizeFilePath root e.path = q) →
      alookup (events.foldl
        (fun cf e => aerase cf (normalizeFilePath root e.path)) cf) q = none := by
  intro events
  induction events with
  | nil =>
    rintro cf q ⟨e, he, -⟩
    cases he
  | cons e rest ih =>
    rintro cf q ⟨e', he', hq⟩
    rw [List.foldl_cons]
    rcases List.mem_cons.mp he' with rfl | he''
    · refine erase_fold_none root rest _ q ?_
      rw [alookup_aerase, if_pos hq]
    · exact ih _ q ⟨e', he'', hq⟩

theorem IndexInv_congr (st₁ st₂ : EngineState)
    (h1 : st₁.fileToSegments = st₂.fileToSegments)
    (h2 : st₁.segmentToFiles = st₂.segmentToFiles)
    (h : IndexInv st₂) : IndexInv st₁ := by
  intro f s
  unfold lookupSet
  rw [h1, h2]
  exact h f s

/-! ## The claims -/

/-- **C1** — Closure soundness: after `buildSegment(S)`, the member-file set
written to S's manifest equals exactly the set of files reachable from S's
entry files by transitively following import edges that resolve (via
`resolveImportPath`, hence to paths inside the source root, stated by the
`isWithin` condition of `ReachableFile.step`) and exist on disk — no file is
omitted and no extra file appears.  The hypothesis says the file cache
agrees with the current disk (true initially and maintained by the
invalidation engine's evictions). -/
theorem buildSegment_closure_sound (root : String) (d : Disk) (now : Nat)
    (w : World) (sd : SegmentDefinition)
    (hcc : CacheConsistent root d w.engine) :
    ∃ m : SegmentManifest,
      alookup (buildSegment root d now w sd).cacheFS
        (getManifestPath root sd.id) = some (DiskJson.manifest m) ∧
      ∀ r, r ∈ m.files.map Prod.fst ↔
        ∃ p, ReachableFile root d sd.entries p ∧
          r = toPosixPath (pRelative root root p) := by
  obtain ⟨m, hm, hentries, hseg, hupd, hkeys, himps⟩ :=
    buildSegment_manifest root d now w sd
  refine ⟨m, hm, ?_⟩
  intro r
  rw [hkeys r]
  have hvis : ∀ p, p ∈ (buildLoop root d (segmentFuel root d w.engine sd.entries)
      w.engine sd.entries [] []).2.1 ↔
      ReachVia root (fun x => (canonRecord root d x).imports) d.existsF []
        sd.entries p := by
    intro p
    have hiff := buildLoop_visited_iff root d
      (fun x => (canonRecord root d x).imports)
      (fun a b hb => canonRecord_imports_normalized root d a b hb)
      (segmentFuel root d w.engine sd.entries) w.engine sd.entries [] []
      (fun x => congrArg CachedFile.imports (effRecord_eq_canon root d w.engine hcc x))
      (by
        unfold segmentFuel
        have hsum_eq : ((d.files.map Prod.fst).toFinset \
            ([] : List String).toFinset).sum
            (fun x => ((canonRecord root d x).imports).length) =
            (d.files.map Prod.fst).toFinset.sum
              (fun p => (effRecord root d w.engine p).imports.length) := by
          rw [List.toFinset_nil, Finset.sdiff_empty]
          refine Finset.sum_congr rfl ?_
          intro x _
          rw [effRecord_eq_canon root d w.engine hcc]
        rw [hsum_eq]
        omega) p
    rw [hiff]
    simp only [List.not_mem_nil, false_or]
  constructor
  · rintro ⟨f, hf, rfl⟩
    exact ⟨f, (ReachableFile_iff_ReachVia root d sd.entries f).mpr
      ((hvis f).mp hf), rfl⟩
  · rintro ⟨p, hp, rfl⟩
    exact ⟨p, (hvis p).mpr
      ((ReachableFile_iff_ReachVia root d sd.entries p).mp hp), rfl⟩

/-- Witness for C1: the two-file fixture built from a fresh engine. -/
theorem buildSegment_closure_sound_witness :
    CacheConsistent "/r" witDisk freshWorld.engine ∧
    (∃ m : SegmentManifest,
      alookup (buildSegment "/r" witDisk 42 freshWorld witSd).cacheFS
        (getManifestPath "/r" witSd.id) = some (DiskJson.manifest m) ∧
      ∀ r, r ∈ m.files.map Prod.fst ↔
        ∃ p, ReachableFile "/r" witDisk witSd.entries p ∧
          r = toPosixPath (pRelative "/r" "/r" p)) :=
  have hcc : CacheConsistent "/r" witDisk freshWorld.engine :=
    fun _ _ h => Option.noConfusion h
  ⟨hcc, buildSegment_closure_sound "/r" witDisk 42 freshWorld witSd hcc⟩

/-- **C2** — Segment Index consistency: `file ∈ segmentToFiles(S)` iff
`S ∈ fileToSegments(file)` (`IndexInv`), and each of
`clearSegmentMembership`, `buildSegment`'s clear-then-repopulate commit and
`removeSegment` preserves the invariant. -/
theorem index_consistency_preserved (root : String) (d : Disk) (now : Nat)
    (w : World) (sd : SegmentDefinition) (sid : String)
    (h : IndexInv w.engine) :
    IndexInv (clearSegmentMembership sid w.engine) ∧
    IndexInv (buildSegment root d now w sd).engine ∧
    IndexInv (removeSegment root sid w).engine := by
  refine ⟨IndexInv_clear sid w.engine h, ?_, ?_⟩
  · have hloopInv : IndexInv (buildLoop root d
        (segmentFuel root d w.engine sd.entries) w.engine sd.entries [] []).1 := by
      refine IndexInv_congr _ _ ?_ ?_ h
      · exact (buildLoop_index root d _ _ _ _ _).1
      · exact (buildLoop_index root d _ _ _ _ _).2.1
    have hcommit : IndexInv (commitMembership sd.id
        (buildLoop root d (segmentFuel root d w.engine sd.entries)
          w.engine sd.entries [] []).2.1
        (buildLoop root d (segmentFuel root d w.engine sd.entries)
          w.engine sd.entries [] []).1) :=
      IndexInv_commit _ _ _ hloopInv
    unfold buildSegment writeManifest
    refine IndexInv_congr _ _ ?_ ?_ hcommit
    · exact (manifestFold_index root d _ _ _ _).1
    · exact (manifestFold_index root d _ _ _ _).2.1
  · unfold removeSegment
    exact IndexInv_congr _ _ rfl rfl (IndexInv_clear sid w.engine h)

/-- Witness for C2: a fresh engine (whose empty index trivially satisfies
the invariant), the fixture build. -/
theorem index_consistency_witness :
    IndexInv freshWorld.engine ∧
    (IndexInv (clearSegmentMembership "src/app" freshWorld.engine) ∧
     IndexInv (buildSegment "/r" witDisk 42 freshWorld witSd).engine ∧
     IndexInv (removeSegment "/r" "src/app" freshWorld).engine) :=
  have h : IndexInv freshWorld.engine := fun f s =>
    iff_of_false (List.not_mem_nil f) (List.not_mem_nil s)
  ⟨h, index_consistency_preserved "/r" witDisk 42 freshWorld witSd "src/app" h⟩

/-- **C3** — Edge restriction: in every manifest `writeManifest` produces,
every path in a member file's `imports` array is itself a key of the same
manifest's `files` map. -/
theorem writeManifest_edge_restriction (root : String) (d : Disk) (now : Nat)
    (w : World) (sd : SegmentDefinition) (segmentFiles : List String)
    (segmentDependencies : List (String × List String)) :
    ∃ m : SegmentManifest,
      alookup (writeManifest root d now w sd segmentFiles
        segmentDependencies).cacheFS (getManifestPath root sd.id) =
        some (DiskJson.manifest m) ∧
      ∀ e ∈ m.files, ∀ imp ∈ e.2.imports, imp ∈ m.files.map Prod.fst := by
  refine ⟨{ entries := sd.entries.map
              (fun entryPath => toPosixPath (pRelative root root entryPath)),
            files := ((sortStrings segmentFiles).foldl
              (manifestStep root d segmentFiles segmentDependencies)
              ([], w.engine)).1,
            segment := sd.id, updatedAt := now }, ?_, ?_⟩
  · unfold writeManifest
    simp [alookup_aset]
  · intro e he imp himp
    have h1 := manifestFold_imports root d segmentFiles segmentDependencies
      (sortStrings segmentFiles) ([], w.engine)
      (by intro e' he' imp' him'; cases he') e he imp himp
    rcases h1 with ⟨q, hq, rfl⟩
    rw [manifestFold_keys]
    exact Or.inr ⟨q, (mem_sortStrings _ _).mpr hq, rfl⟩

/-- **C4 counterexample** — the claim's "entry file missing on disk" case
violates the subset: building `src/app` over an empty source tree lists the
layout under `entries` while `files` stays empty. -/
theorem entries_subset_counterexample :
    ∃ m : SegmentManifest,
      alookup (buildSegment "/r" bareDisk 0 freshWorld witSd).cacheFS
        (getManifestPath "/r" witSd.id) = some (DiskJson.manifest m) ∧
      "src/app/layout.tsx" ∈ m.entries ∧
      "src/app/layout.tsx" ∉ m.files.map Prod.fst := by
  refine ⟨{ entries := ["src/app/layout.tsx"], files := [],
            segment := "src/app", updatedAt := 0 }, ?_, ?_, ?_⟩
  · rfl
  · decide
  · decide

/-- **C4 (amended)** — Entries subset: whenever every entry in the segment
definition exists on disk at build time (in the normalized form
`getSegmentEntries` produces, which `buildSegmentForId` re-derives
immediately before every build), every path in the manifest's `entries`
array is also a key of its `files` map.  If an entry is missing on disk it
is still listed in `entries` but omitted from `files` (the
counterexample). -/
theorem buildSegment_entries_subset (root : String) (d : Disk) (now : Nat)
    (w : World) (sd : SegmentDefinition)
    (hentries : ∀ e ∈ sd.entries,
      normalizeFilePath root e = e ∧ d.existsF e = true) :
    ∃ m : SegmentManifest,
      alookup (buildSegment root d now w sd).cacheFS
        (getManifestPath root sd.id) = some (DiskJson.manifest m) ∧
      ∀ r ∈ m.entries, r ∈ m.files.map Prod.fst := by
  obtain ⟨m, hm, hentriesEq, -, -, hkeys, -⟩ := buildSegment_manifest root d now w sd
  refine ⟨m, hm, ?_⟩
  intro r hr
  rw [hentriesEq] at hr
  rcases List.mem_map.mp hr with ⟨e, he, rfl⟩
  rw [hkeys]
  have hex : d.existsF (normalizeFilePath root e) = true := by
    rw [(hentries e he).1]
    exact (hentries e he).2
  have hvis := buildLoop_stack_visited root d
    (segmentFuel root d w.engine sd.entries) w.engine sd.entries [] []
    (by
      unfold segmentFuel
      rw [List.toFinset_nil, Finset.sdiff_empty]
      omega) e he hex
  refine ⟨e, ?_, rfl⟩
  rw [← (hentries e he).1]
  exact hvis

/-- Witness for C4's amended theorem: the fixture's entry exists on disk. -/
theorem buildSegment_entries_subset_witness :
    (∀ e ∈ witSd.entries,
      normalizeFilePath "/r" e = e ∧ witDisk.existsF e = true) ∧
    (∃ m : SegmentManifest,
      alookup (buildSegment "/r" witDisk 42 freshWorld witSd).cacheFS
        (getManifestPath "/r" witSd.id) = some (DiskJson.manifest m) ∧
      ∀ r ∈ m.entries, r ∈ m.files.map Prod.fst) :=
  have h : ∀ e ∈ witSd.entries,
      normalizeFilePath "/r" e = e ∧ witDisk.existsF e = true := by decide
  ⟨h, buildSegment_entries_subset "/r" witDisk 42 freshWorld witSd h⟩

/-- **C5** — Idempotence modulo timestamp: building the same definition
twice with no intervening disk change and no cache invalidation yields
manifests with identical `entries`, `files` (and `segment`); only
`updatedAt` carries the respective build times. -/
theorem buildSegment_idempotent_mod_timestamp (root : String) (d : Disk)
    (t₁ t₂ : Nat) (w : World) (sd : SegmentDefinition) :
    ∃ m₁ m₂ : SegmentManifest,
      alookup (buildSegment root d t₁ w sd).cacheFS (getManifestPath root sd.id) =
        some (DiskJson.manifest m₁) ∧
      alookup (buildSegment root d t₂ (buildSegment root d t₁ w sd) sd).cacheFS
        (getManifestPath root sd.id) = some (DiskJson.manifest m₂) ∧
      m₁.entries = m₂.entries ∧ m₁.files = m₂.files ∧ m₁.segment = m₂.segment ∧
      m₁.updatedAt = t₁ ∧ m₂.updatedAt = t₂ :=
  buildSegment_manifest_content root d t₁ t₂ w (buildSegment root d t₁ w sd) sd
    (fun x => (buildSegment_eff root d t₁ w sd x).symm)

theorem eventFold_changed0 (root : String) (events : List WatchEvent)
    (w : World) :
    (events.foldl (eventStep root) (false, [], w.engine)).2.1 =
      specChangedFiles root events := by
  rw [eventFold_changed]
  rfl

theorem eventFold_engine0 (root : String) (events : List WatchEvent)
    (w : World) :
    { w with engine := (events.foldl (eventStep root) (false, [], w.engine)).2.2 } =
      evictChanged root events w := by
  rw [eventFold_engine]
  rfl

theorem evictChanged_fileToSegments (root : String) (events : List WatchEvent)
    (w : World) :
    (evictChanged root events w).engine.fileToSegments =
      w.engine.fileToSegments := rfl

theorem evictChanged_segmentDefinitions (root : String) (events : List WatchEvent)
    (w : World) :
    (evictChanged root events w).engine.segmentDefinitions =
      w.engine.segmentDefinitions := rfl

/-- **C6** — Targeted invalidation: a non-empty batch with no creations, no
deletions and no entry-marker files evicts each changed path from the file
cache and then rebuilds exactly the segments obtained by unioning the
file-to-segments lookups of the changed files, in sorted id order. -/
theorem handleSourceEvents_targeted (root : String) (d : Disk) (now : Nat)
    (events : List WatchEvent) (w : World)
    (hne : events ≠ [])
    (hcd : ∀ e ∈ events, e.type ≠ "create" ∧ e.type ≠ "delete")
    (hentry : ∀ e ∈ events,
      isEntryFile root (normalizeFilePath root e.path) = false) :
    handleSourceEvents root d now events w =
      (sortStrings (impactedUnion w.engine.fileToSegments
          (specChangedFiles root events))).foldl
        (fun w' segmentId => buildSegmentForId root d now segmentId w')
        (evictChanged root events w) := by
  unfold handleSourceEvents
  rw [if_neg (by simp [hne]), if_neg ?hno]
  case hno =>
    rw [eventFold_fst]
    simp only [Bool.false_or, Bool.not_eq_true]
    rw [List.any_eq_false]
    intro e he
    simp [(hcd e he).1, (hcd e he).2]
  rw [eventFold_changed0, eventFold_engine0]
  unfold rebuildImpactedSegments
  rw [evictChanged_fileToSegments, evictChanged_segmentDefinitions]
  rw [impactedFold_no_entry root w.engine.fileToSegments
    w.engine.segmentDefinitions (specChangedFiles root events) [] ?hin]
  case hin =>
    intro f hf
    rcases mem_specChangedFiles root events f hf with ⟨e, he, rfl⟩
    exact hentry e he
  rfl

/-- Witness for C6: one content-edit event on a non-entry source file. -/
theorem handleSourceEvents_targeted_witness :
    ([⟨"/r/src/app/x.tsx", "update"⟩] : List WatchEvent) ≠ [] ∧
    handleSourceEvents "/r" witDisk 9 [⟨"/r/src/app/x.tsx", "update"⟩] freshWorld =
      (sortStrings (impactedUnion freshWorld.engine.fileToSegments
          (specChangedFiles "/r" [⟨"/r/src/app/x.tsx", "update"⟩]))).foldl
        (fun w' segmentId => buildSegmentForId "/r" witDisk 9 segmentId w')
        (evictChanged "/r" [⟨"/r/src/app/x.tsx", "update"⟩] freshWorld) :=
  ⟨by decide,
    handleSourceEvents_targeted "/r" witDisk 9 _ freshWorld (by decide)
      (by decide) (by decide)⟩

/-- **C7** — Request idempotence: a manifest request for a path whose file
on disk is already a populated manifest (it parses with a `files` key) is a
complete no-op: no build, no state change, no rewrite.  Hence two
back-to-back requests for the same target cause at most one build. -/
theorem processManifestRequest_idempotent (root : String) (d : Disk)
    (now : Nat) (manifestPath : String) (w : World) (m : SegmentManifest)
    (h : alookup w.cacheFS (normalizeFilePath root manifestPath) =
      some (DiskJson.manifest m)) :
    processManifestRequest root d now manifestPath w = w := by
  unfold processManifestRequest
  by_cases hb : pBasename (normalizeFilePath root manifestPath) = "manifest.json"
  · rw [if_neg (by simp [hb])]
    rw [if_pos ?hreq]
    case hreq =>
      unfold isManifestRequest
      rw [h]
      rfl
  · rw [if_pos (by simp [hb])]

/-- Witness for C7: after the fixture build, a repeated request for the
populated manifest leaves the world untouched. -/
theorem processManifestRequest_idempotent_witness :
    alookup (buildSegmentForId "/r" witDisk 42 "src/app" freshWorld).cacheFS
      (normalizeFilePath "/r" "/r/node_modules/.cache/test/src/app/manifest.json") =
      some (DiskJson.manifest
        { entries := ["src/app/layout.tsx"],
          files := [("src/app/layout.tsx", ⟨["src/app/x.tsx"], 2⟩),
                    ("src/app/x.tsx", ⟨[], 1⟩)],
          segment := "src/app", updatedAt := 42 }) ∧
    processManifestRequest "/r" witDisk 7
        "/r/node_modules/.cache/test/src/app/manifest.json"
        (buildSegmentForId "/r" witDisk 42 "src/app" freshWorld) =
      buildSegmentForId "/r" witDisk 42 "src/app" freshWorld :=
  have hc : (buildSegmentForId "/r" witDisk 42 "src/app" freshWorld).cacheFS =
      [(getManifestPath "/r" "src/app", DiskJson.manifest
        { entries := ["src/app/layout.tsx"],
          files := [("src/app/layout.tsx", ⟨["src/app/x.tsx"], 2⟩),
                    ("src/app/x.tsx", ⟨[], 1⟩)],
          segment := "src/app", updatedAt := 42 })] := by decide
  have h : alookup (buildSegmentForId "/r" witDisk 42 "src/app" freshWorld).cacheFS
      (normalizeFilePath "/r" "/r/node_modules/.cache/test/src/app/manifest.json") =
      some (DiskJson.manifest
        { entries := ["src/app/layout.tsx"],
          files := [("src/app/layout.tsx", ⟨["src/app/x.tsx"], 2⟩),
                    ("src/app/x.tsx", ⟨[], 1⟩)],
          segment := "src/app", updatedAt := 42 }) := by rw [hc]; decide
  ⟨h, processManifestRequest_idempotent "/r" witDisk 7 _ _ _ h⟩

/-- **C8** — File Cache behaviour for missing files: `get` on an uncached
path whose file does not exist returns the zero-import, zero-line record
and stores it; and the handling of a deletion event evicts the deleted path
and never re-caches a record for it (rebuilds only fetch existing files),
so the zero record is not kept: the next access recomputes from disk. -/
theorem cache_missing_file_behaviour (root : String) (d : Disk) (now : Nat)
    (st : EngineState) (p : String) (events : List WatchEvent) (w : World)
    (q : String)
    (hp_cache : alookup st.cachedFiles (normalizeFilePath root p) = none)
    (hp_disk : d.existsF (normalizeFilePath root p) = false)
    (hq_event : ∃ e ∈ events, e.type = "delete" ∧
      normalizeFilePath root e.path = q)
    (hq_disk : d.existsF q = false) :
    (getCachedFile root d st p).1 = ⟨[], 0⟩ ∧
    alookup (getCachedFile root d st p).2.cachedFiles
      (normalizeFilePath root p) = some ⟨[], 0⟩ ∧
    alookup (handleSourceEvents root d now events w).engine.cachedFiles q =
      none := by
  refine ⟨?_, ?_, ?_⟩
  · rw [getCachedFile_fst]
    unfold effRecord
    rw [hp_cache, hp_disk]
    rfl
  · unfold getCachedFile
    simp only [hp_cache, hp_disk, Bool.not_false, if_true]
    rw [alookup_aset, if_pos rfl]
  · obtain ⟨e, he, hdel, hqe⟩ := hq_event
    unfold handleSourceEvents
    rw [if_neg (by simp [List.isEmpty_iff]; exact List.ne_nil_of_mem he)]
    rw [if_pos ?hcd]
    case hcd =>
      rw [eventFold_fst]
      simp only [Bool.false_or]
      rw [List.any_eq_true]
      exact ⟨e, he, by simp [hdel]⟩
    unfold rebuildAllActiveSegments
    refine foldl_buildSegmentForId_cache_missing root d now q hq_disk _ _ ?_
    show alookup (events.foldl (eventStep root) (false, [], w.engine)).2.2.cachedFiles q = none
    rw [eventFold_engine]
    show alookup (events.foldl
      (fun cf e => aerase cf (normalizeFilePath root e.path))
      w.engine.cachedFiles) q = none
    exact erase_fold_erased root events _ q ⟨e, he, hqe⟩

/-- Witness for C8: a missing file fetched from a fresh cache, and a delete
batch for a path absent from the fixture disk. -/
theorem cache_missing_file_behaviour_witness :
    alookup freshWorld.engine.cachedFiles
        (normalizeFilePath "/r" "/r/src/app/missing.tsx") = none ∧
    witDisk.existsF (normalizeFilePath "/r" "/r/src/app/missing.tsx") = false ∧
    ((getCachedFile "/r" witDisk freshWorld.engine "/r/src/app/missing.tsx").1 =
      ⟨[], 0⟩ ∧
    alookup (getCachedFile "/r" witDisk freshWorld.engine
      "/r/src/app/missing.tsx").2.cachedFiles
      (normalizeFilePath "/r" "/r/src/app/missing.tsx") = some ⟨[], 0⟩ ∧
    alookup (handleSourceEvents "/r" witDisk 5
      [⟨"/r/src/app/gone.tsx", "delete"⟩] freshWorld).engine.cachedFiles
      "/r/src/app/gone.tsx" = none) :=
  have h1 : alookup freshWorld.engine.cachedFiles
      (normalizeFilePath "/r" "/r/src/app/missing.tsx") = none := by decide
  have h2 : witDisk.existsF (normalizeFilePath "/r" "/r/src/app/missing.tsx") =
      false := by decide
  ⟨h1, h2, cache_missing_file_behaviour "/r" witDisk 5 freshWorld.engine
    "/r/src/app/missing.tsx" [⟨"/r/src/app/gone.tsx", "delete"⟩] freshWorld
    "/r/src/app/gone.tsx" h1 h2 (by decide) (by decide)⟩

/-- `split` never returns an empty array. -/
theorem splitLineTerms_ne_nil (l : List Char) : splitLineTerms l ≠ [] := by
  induction l using splitLineTerms.induct with
  | case1 => simp [splitLineTerms]
  | case2 rest ih => simp [splitLineTerms]
  | case3 rest ih => simp [splitLineTerms]
  | case4 c rest h1 h2 hs ih => simp [splitLineTerms, h1, h2, hs]
  | case5 c rest h1 h2 l ls hs ih => simp [splitLineTerms, h1, h2, hs]

/-- `countLineTerminators` skips a character that starts no terminator. -/
theorem countLineTerminators_cons (c : Char) (rest : List Char)
    (h1 : ∀ rest1 : List Char, c = '\x0d' → rest = '\n' :: rest1 → False)
    (h2 : c = '\n' → False) :
    countLineTerminators (c :: rest) = countLineTerminators rest := by
  rw [countLineTerminators]
  · exact h1
  · exact h2

/-- The number of split segments is the number of terminators plus one. -/
theorem splitLineTerms_length (l : List Char) :
    (splitLineTerms l).length = countLineTerminators l + 1 := by
  induction l using splitLineTerms.induct with
  | case1 => rfl
  | case2 rest ih =>
    rw [splitLineTerms, countLineTerminators]
    simpa using ih
  | case3 rest ih =>
    rw [show splitLineTerms ('\n' :: rest) = [] :: splitLineTerms rest from by
      rw [splitLineTerms]]
    rw [show countLineTerminators ('\n' :: rest) =
      countLineTerminators rest + 1 from by rw [countLineTerminators]]
    simpa using ih
  | case4 c rest h1 h2 hs ih => exact absurd hs (splitLineTerms_ne_nil rest)
  | case5 c rest h1 h2 l ls hs ih =>
    rw [show splitLineTerms (c :: rest) = (c :: l) :: ls from by
      rw [splitLineTerms]
      · rw [hs]
      · exact h1
      · exact h2]
    rw [countLineTerminators_cons c rest h1 h2]
    rw [hs] at ih
    simpa using ih

/-- **C9** — Line count: the recorded count of a zero-length text is zero,
and for non-empty text it equals the number of segments obtained by
splitting at CRLF/LF terminators — one more than the number of
terminators. -/
theorem countLines_spec (s : String) :
    countLines s =
      if s.length = 0 then 0 else countLineTerminators s.toList + 1 := by
  unfold countLines
  by_cases h : s.length = 0
  · rw [if_pos h, if_pos h]
  · rw [if_neg h, if_neg h]
    exact splitLineTerms_length s.toList

/-- **C10** — Manifest-request confinement: a request whose (normalized)
path does not end in `manifest.json`, or whose directory lies outside the
cache root (its cache-root-relative form starts with `..` or is absolute),
changes nothing: not the caches, not the index, not the definitions, not
the cache directory. -/
theorem processManifestRequest_confined (root : String) (d : Disk) (now : Nat)
    (manifestPath : String) (w : World)
    (h : pBasename (normalizeFilePath root manifestPath) ≠ "manifest.json" ∨
      strStartsWith (toPosixPath (pRelative root (CACHE_DIR root)
        (pDirname (normalizeFilePath root manifestPath)))) ".." = true ∨
      pIsAbsolute (toPosixPath (pRelative root (CACHE_DIR root)
        (pDirname (normalizeFilePath root manifestPath)))) = true) :
    processManifestRequest root d now manifestPath w = w := by
  unfold processManifestRequest
  rcases h with hb | hout
  · rw [if_pos (by simp [hb])]
  · by_cases hb : pBasename (normalizeFilePath root manifestPath) = "manifest.json"
    · rw [if_neg (by simp [hb])]
      by_cases hreq : isManifestRequest w (normalizeFilePath root manifestPath)
      · rw [if_neg (by simp [hreq])]
        rw [show getSegmentIdFromManifestPath root
            (normalizeFilePath root manifestPath) = none from by
          unfold getSegmentIdFromManifestPath
          rcases hout with h1 | h2
          · rw [if_pos (by rw [h1]; simp)]
          · rw [if_pos (by rw [h2]; simp)]]
      · rw [if_pos (by simp [hreq])]
    · rw [if_pos (by simp [hb])]

/-- Witness for C10: a `manifest.json` request outside the cache root. -/
theorem processManifestRequest_confined_witness :
    (pBasename (normalizeFilePath "/r" "/r/tmp/manifest.json") ≠ "manifest.json" ∨
      strStartsWith (toPosixPath (pRelative "/r" (CACHE_DIR "/r")
        (pDirname (normalizeFilePath "/r" "/r/tmp/manifest.json")))) ".." = true ∨
      pIsAbsolute (toPosixPath (pRelative "/r" (CACHE_DIR "/r")
        (pDirname (normalizeFilePath "/r" "/r/tmp/manifest.json")))) = true) ∧
    processManifestRequest "/r" witDisk 3 "/r/tmp/manifest.json" freshWorld =
      freshWorld :=
  have h : (pBasename (normalizeFilePath "/r" "/r/tmp/manifest.json") ≠
        "manifest.json" ∨
      strStartsWith (toPosixPath (pRelative "/r" (CACHE_DIR "/r")
        (pDirname (normalizeFilePath "/r" "/r/tmp/manifest.json")))) ".." = true ∨
      pIsAbsolute (toPosixPath (pRelative "/r" (CACHE_DIR "/r")
        (pDirname (normalizeFilePath "/r" "/r/tmp/manifest.json")))) = true) := by
    decide
  ⟨h, processManifestRequest_confined "/r" witDisk 3 "/r/tmp/manifest.json"
    freshWorld h⟩

end SegmentEngine
